import Mathlib

/-!
Verification development for the qiita-files repository.

Text and byte strings are embedded as `List Char` (one entry per byte,
identified with its ASCII code point); quality scores are `Int`.
Python functions from the sources are translated into executable Lean
definitions keeping their names.  Parts of the repository whose code is
not available (the demux engine `qiita_files/demux.py` and
`qiita_files/format/fastq.py`) are modelled from the design
specification; their doc comments say so explicitly.
-/

/-! ### Byte/char helpers shared by all models -/

/-- Python byte/str whitespace class used by `bytes.strip` (space, tab,
newline, carriage return, vertical tab, form feed). -/
def isPyWS (c : Char) : Bool :=
  c.toNat == 32 || c.toNat == 9 || c.toNat == 10 || c.toNat == 13 ||
  c.toNat == 11 || c.toNat == 12

/-- Python `bytes.strip()` / `str.strip()`: remove whitespace from both ends. -/
def pyStrip (l : List Char) : List Char :=
  ((l.dropWhile isPyWS).reverse.dropWhile isPyWS).reverse

/-- Remove every trailing occurrence of `c` (how h5py presents fixed-width
byte strings: trailing NUL padding is trimmed on read). -/
def rstripChar (c : Char) (l : List Char) : List Char :=
  (l.reverse.dropWhile (fun x => x == c)).reverse

/-- The NUL padding byte used by the fixed-width store rows. -/
def padByte : Char := Char.ofNat 0

/-- Right-pad `l` with `c` to width `w` (and truncate at `w`), the shape a
fixed-width store row has on disk. -/
def padTo (w : Nat) (c : Char) (l : List Char) : List Char :=
  (l ++ List.replicate (w - l.length) c).take w

/-- Right-pad an integer row with zeros to width `w` (and truncate at `w`). -/
def padToInt (w : Nat) (l : List Int) : List Int :=
  (l ++ List.replicate (w - l.length) 0).take w

/-- Decimal digit character for `n < 10`. -/
def digitCh (n : Nat) : Char :=
  match n with
  | 0 => Char.ofNat 48
  | 1 => Char.ofNat 49
  | 2 => Char.ofNat 50
  | 3 => Char.ofNat 51
  | 4 => Char.ofNat 52
  | 5 => Char.ofNat 53
  | 6 => Char.ofNat 54
  | 7 => Char.ofNat 55
  | 8 => Char.ofNat 56
  | _ => Char.ofNat 57

/-- Fuel-indexed body of `natDigits` (structural recursion so that the
definition evaluates). -/
def natDigitsAux : Nat → Nat → List Char
  | 0, n => [digitCh n]
  | fuel + 1, n =>
    if n < 10 then [digitCh n]
    else natDigitsAux fuel (n / 10) ++ [digitCh (n % 10)]

/-- Decimal representation of a natural number, most significant digit
first (the way Python renders an int into a label). -/
def natDigits (n : Nat) : List Char := natDigitsAux n n

/-- Numeric value of a decimal digit character. -/
def digitVal (c : Char) : Nat := c.toNat - 48

/-- Value of a run of decimal digit characters (`int(...)` on a digit run). -/
def digitsToNat (l : List Char) : Nat :=
  l.foldl (fun a c => a * 10 + digitVal c) 0

/-! ### Model of `qiita_files/util.py` (`_is_string_or_bytes`,
`_get_filehandle`, `open_file`) -/

/-- Argument accepted by `open_file`: a `str` path, a `bytes` path, or an
arbitrary already-open file-like object (identified by a tag). -/
inductive PyArg : Type
  | str (s : List Char)
  | bytes (s : List Char)
  | filelike (o : Nat)
deriving DecidableEq

/-- File handle produced by `_get_filehandle`: an `h5py.File`, a handle from
the builtin `open`, or the caller's own object passed through untouched. -/
inductive FileHandle : Type
  | h5file (p : PyArg)
  | opened (p : PyArg)
  | raw (o : Nat)
deriving DecidableEq

/-- Translation of `_is_string_or_bytes` from `qiita_files/util.py`. -/
def _is_string_or_bytes (v : PyArg) : Bool :=
  match v with
  | .str _ => true
  | .bytes _ => true
  | .filelike _ => false

/-- Translation of `_get_filehandle` from `qiita_files/util.py`: opens the
argument when it is a string/bytes path (via `h5py.File` when `is_hdf5`
reports an HDF5 file, via builtin `open` otherwise) and returns the pair
`(fh, own_fh)`.  The external `h5py.is_hdf5` test is a parameter. -/
def _get_filehandle (is_hdf5 : PyArg → Bool) (v : PyArg) : FileHandle × Bool :=
  if _is_string_or_bytes v then
    if is_hdf5 v then (.h5file v, true) else (.opened v, true)
  else
    match v with
    | .filelike o => (.raw o, false)
    | .str s => (.opened (.str s), true)
    | .bytes s => (.opened (.bytes s), true)

/-- Outcome of one use of the `open_file` context manager: the value the
body produced (or the exception it raised), the handle that was yielded to
the body, and whether that handle was closed on exit. -/
structure OpenFileTrace (ε α : Type) : Type where
  result : Except ε α
  yielded : FileHandle
  closedYielded : Bool

/-- Translation of the `open_file` context manager from
`qiita_files/util.py`: obtain `(fh, own_fh)` from `_get_filehandle`, run
the body on `fh` (which may raise, modelled by `Except`), and in the
`finally` block close `fh` exactly when `own_fh` is true. -/
def open_file (is_hdf5 : PyArg → Bool) (v : PyArg)
    (body : FileHandle → Except ε α) : OpenFileTrace ε α :=
  let fh := _get_filehandle is_hdf5 v
  { result := body fh.1, yielded := fh.1, closedYielded := fh.2 }

/-! ### Model of `qiita_files/format/fasta.py` (`format_fasta_record`) -/

/-- Translation of `format_fasta_record` from `qiita_files/format/fasta.py`:
the Python body is a bytes join, re-created here verbatim with
`List.intercalate`; the `qual` argument is declared ignored. -/
def format_fasta_record (seqid seq : List Char) (_qual : γ) : List Char :=
  List.intercalate [Char.ofNat 10] [Char.ofNat 62 :: seqid, seq, []]

/-! ### Model of `qiita_files/format/fastq.py` -/

/-- Modelled from the spec: `qiita_files/format/fastq.py` is not among the
available sources (only its tests are).  Per §6 a fastq record is
`@<label>\n<sequence>\n+\n<quality-as-ascii>\n`, where each quality score
is rendered as the ASCII character at the phred offset
(`_phred_to_ascii33` adds 33). -/
def _phred_to_ascii (offset : Int) (qual : List Int) : List Char :=
  qual.map (fun q => Char.ofNat (q + offset).toNat)

/-- Modelled from the spec: `format_fastq_record` of
`qiita_files/format/fastq.py` (code not under the available sources),
shaped per §6 and its tests: `@seqid\nseq\n+\n<ascii qual>\n`. -/
def format_fastq_record (seqid seq : List Char) (qual : List Int) : List Char :=
  Char.ofNat 64 :: seqid ++ Char.ofNat 10 :: seq ++
    [Char.ofNat 10, Char.ofNat 43, Char.ofNat 10] ++
    _phred_to_ascii 33 qual ++ [Char.ofNat 10]

/-! ### Model of `qiita_files/parse/fastq.py` (`parse_fastq`) -/

/-- One record yielded by `parse_fastq`: the label (id marker dropped), the
sequence, and the decoded quality scores. -/
structure FastqRec : Type where
  label : List Char
  seq : List Char
  qual : List Int
deriving DecidableEq

/-- Wrap an integer into the `np.int8` range, the arithmetic `parse_fastq`
performs on quality bytes. -/
def wrap8 (x : Int) : Int := (x + 128) % 256 - 128

/-- Translation of `_ascii_to_phred` applied to one byte: view the byte as
`np.int8` and subtract the offset in int8 arithmetic. -/
def phredDecode (offset : Int) (c : Char) : Int :=
  wrap8 (wrap8 c.toNat - offset)

/-- Group of up to four lines as produced by `zip_longest([iter(data)]*4)`:
the first line is always present, the other three are `none` past the end
of the file. -/
abbrev Chunk4 : Type :=
  List Char × Option (List Char) × Option (List Char) × Option (List Char)

/-- The chunking `zip_longest([iter(data)]*4)` performs on the file's lines. -/
def chunk4 (l : List α) : List (α × Option α × Option α × Option α) :=
  match l with
  | [] => []
  | [a] => [(a, none, none, none)]
  | [a, b] => [(a, some b, none, none)]
  | [a, b, c] => [(a, some b, some c, none)]
  | a :: b :: c :: d :: rest => (a, some b, some c, some d) :: chunk4 rest

/-- Translation of one iteration of the `parse_fastq` loop in
`qiita_files/parse/fastq.py`: skip the group when the stripped seqid line
is blank, raise on an incomplete group, optionally check the id match,
decode the quality bytes and optionally check their range. -/
def parseFastqChunk (strict enforce : Bool) (offset : Int) (ch : Chunk4) :
    Except String (Option FastqRec) :=
  let seqid0 := pyStrip ch.1
  if seqid0 = [] then .ok none
  else
    match ch.2.1, ch.2.2.1, ch.2.2.2 with
    | some seq, some qualid, some qual =>
      let seq := pyStrip seq
      let qualid := pyStrip qualid
      let qual := pyStrip qual
      let seqid := seqid0.drop 1
      let qualid := qualid.drop 1
      if strict = true ∧ seqid ≠ qualid then .error "ID mismatch"
      else
        let q := qual.map (phredDecode offset)
        if enforce = true ∧ q.any (fun x => decide (x < 0) || decide (62 < x)) then
          .error "Failed qual conversion"
        else .ok (some ⟨seqid, seq, q⟩)
    | _, _, _ => .error "Incomplete FASTQ record found at end of file"

/-- The loop of `parse_fastq` over the 4-line groups, aborting at the first
raised error and collecting the yielded records. -/
def parseFastqGo (strict enforce : Bool) (offset : Int) :
    List Chunk4 → Except String (List FastqRec)
  | [] => .ok []
  | ch :: rest =>
    match parseFastqChunk strict enforce offset ch with
    | .error e => .error e
    | .ok none => parseFastqGo strict enforce offset rest
    | .ok (some r) => (parseFastqGo strict enforce offset rest).map (fun rs => r :: rs)

/-- Translation of `parse_fastq` from `qiita_files/parse/fastq.py`, over the
input file's lines (a list of byte strings). -/
def parse_fastq (lines : List (List Char)) (strict enforce : Bool)
    (phred_offset : Int) : Except String (List FastqRec) :=
  if phred_offset = 33 ∨ phred_offset = 64 then
    parseFastqGo strict enforce phred_offset (chunk4 lines)
  else .error "Unknown PHRED offset"

/-- Whether a 4-line group is complete (no line missing). -/
def fastqChunkComplete (ch : Chunk4) : Bool :=
  ch.2.1.isSome && ch.2.2.1.isSome && ch.2.2.2.isSome

/-- A group that starts a record (nonblank stripped first line) but is
missing lines: this is an incomplete record at the end of the file. -/
def fastqChunkIncomplete (ch : Chunk4) : Bool :=
  !(pyStrip ch.1).isEmpty && !fastqChunkComplete ch

/-- A complete record group whose sequence id differs from its quality id
(both after stripping and dropping the one-character id marker). -/
def fastqChunkMismatch (ch : Chunk4) : Bool :=
  !(pyStrip ch.1).isEmpty && fastqChunkComplete ch &&
    decide ((pyStrip ch.1).drop 1 ≠ (pyStrip (ch.2.2.1.getD [])).drop 1)

/-- A complete record group with a decoded quality score outside `[0, 62]`. -/
def fastqChunkBadQual (offset : Int) (ch : Chunk4) : Bool :=
  !(pyStrip ch.1).isEmpty && fastqChunkComplete ch &&
    ((pyStrip (ch.2.2.2.getD [])).map (phredDecode offset)).any
      (fun x => decide (x < 0) || decide (62 < x))

/-- Presence of an incomplete trailing record among the input's 4-line
groups (only the last group can be incomplete). -/
def hasIncompleteEnd (lines : List (List Char)) : Bool :=
  (chunk4 lines).any fastqChunkIncomplete

/-- Presence of a record whose sequence id differs from its quality id. -/
def hasIdMismatch (lines : List (List Char)) : Bool :=
  (chunk4 lines).any fastqChunkMismatch

/-- Presence of a record with an out-of-range decoded quality score. -/
def hasBadQual (offset : Int) (lines : List (List Char)) : Bool :=
  (chunk4 lines).any (fastqChunkBadQual offset)

/-- The triple a well-formed 4-line record group yields (skipped groups and
incomplete groups yield nothing). -/
def fastqGoodOf (offset : Int) (ch : Chunk4) : Option FastqRec :=
  if !(pyStrip ch.1).isEmpty && fastqChunkComplete ch then
    some ⟨(pyStrip ch.1).drop 1, pyStrip (ch.2.1.getD []),
          (pyStrip (ch.2.2.2.getD [])).map (phredDecode offset)⟩
  else none

/-- The record list a fully well-formed input yields: one triple per
complete record group, in order. -/
def fastqGoodRecords (offset : Int) (lines : List (List Char)) : List FastqRec :=
  (chunk4 lines).filterMap (fastqGoodOf offset)

/-- Whether a 4-line group makes `parse_fastq` raise under the given
options: an incomplete trailing record, an id mismatch under `strict`, or
an out-of-range quality score under `enforce_qual_range`. -/
def chunkBad (strict enforce : Bool) (offset : Int) (ch : Chunk4) : Bool :=
  fastqChunkIncomplete ch || (strict && fastqChunkMismatch ch) ||
    (enforce && fastqChunkBadQual offset ch)

/-! ### Model of the buffered writers `buffer1d` / `buffer2d` of
`qiita_files/demux.py` -/

/-- Modelled from the spec: the BufferedWriter state of
`qiita_files/demux.py` (code not among the available sources), §3/§4.4:
destination array `dset`, internal buffer `buf` of `max_fill` rows,
buffered count `n` (source field `_n`), write cursor `idx` (source field
`_idx`).  The row type is a parameter: `buffer1d` rows are scalars,
`buffer2d` rows are fixed-length vectors. -/
structure buffer (α : Type) : Type where
  dset : List α
  buf : List α
  n : Nat
  idx : Nat
  max_fill : Nat
deriving DecidableEq

/-- Modelled from the spec: a freshly constructed writer over `dset` with
capacity `max_fill`; the buffer starts as `max_fill` zero rows (`z`). -/
def buffer.mk0 (z : α) (dset : List α) (max_fill : Nat) : buffer α :=
  ⟨dset, List.replicate max_fill z, 0, 0, max_fill⟩

/-- Modelled from the spec, §4.4 `flush()`: write the first `n` buffered
rows to `destination[idx : idx+n]`, advance the cursor, reset the count,
and reset the buffer to zero rows (per the unit tests the buffer holds
zeros again after a flush). -/
def buffer.flush (z : α) (b : buffer α) : buffer α :=
  { b with
      dset := b.dset.take b.idx ++ b.buf.take b.n ++ b.dset.drop (b.idx + b.n),
      idx := b.idx + b.n, n := 0, buf := List.replicate b.max_fill z }

/-- Modelled from the spec, §4.4 `write(value)`: place the row at slot `n`,
increment the count, and flush immediately when the buffer is full. -/
def buffer.write (z : α) (b : buffer α) (v : α) : buffer α :=
  let b1 : buffer α := { b with buf := b.buf.set b.n v, n := b.n + 1 }
  if b1.n = b1.max_fill then b1.flush z else b1

/-- Modelled from the spec, §4.4 `is_full()`: defensive `n >= max_fill`. -/
def buffer.is_full (b : buffer α) : Bool := b.max_fill ≤ b.n

/-- Modelled from the spec: the 1-D writer (scalar integer rows). -/
abbrev buffer1d : Type := buffer Int

/-- Modelled from the spec: the 2-D writer (vector rows). -/
abbrev buffer2d : Type := buffer (List Int)

/-- One client call on a buffered writer: a `write` or a forced `flush`. -/
inductive BufOp (α : Type) : Type
  | write (v : α)
  | flushNow
deriving DecidableEq

/-- Apply one client call to the writer. -/
def buffer.step (z : α) (b : buffer α) (op : BufOp α) : buffer α :=
  match op with
  | .write v => b.write z v
  | .flushNow => b.flush z

/-- Run a sequence of client calls against the writer. -/
def buffer.run (z : α) (b : buffer α) (ops : List (BufOp α)) : buffer α :=
  ops.foldl (buffer.step z) b

/-- The values handed to `write`, in call order. -/
def writtenValues (ops : List (BufOp α)) : List α :=
  ops.filterMap (fun op => match op with | .write v => some v | .flushNow => none)

/-! ### Model of `qiita_files/parse/fasta.py` (`parse_fasta`) -/

/-- Translation of `is_empty` from `qiita_files/parse/fasta.py` combined
with Python's `isspace` (`(not line) or line.isspace()`). -/
def is_empty (l : List Char) : Bool :=
  l.isEmpty || (!l.isEmpty && l.all isPyWS)

/-- Python `startswith` on a single character. -/
def startsWithCh (c : Char) (l : List Char) : Bool :=
  match l with
  | [] => false
  | a :: _ => a == c

/-- Translation of `is_fasta_label` from `qiita_files/parse/fasta.py`. -/
def is_fasta_label (l : List Char) : Bool := startsWithCh (Char.ofNat 62) l

/-- Translation of `is_blank_or_comment` from `qiita_files/parse/fasta.py`. -/
def is_blank_or_comment (l : List Char) : Bool :=
  l.isEmpty || startsWithCh (Char.ofNat 35) l || (!l.isEmpty && l.all isPyWS)

/-- Loop of the parser returned by `LabeledRecordFinder` in
`qiita_files/parse/fasta.py` with `constructor = strip`: strip each line,
skip ignored lines, start a new record at each label line, and emit the
accumulated record lists in order. -/
def finderAux (isLabel ignoreF : List Char → Bool) :
    List (List Char) → List (List Char) → List (List (List Char))
  | [], curr => if curr.isEmpty then [] else [curr]
  | l :: rest, curr =>
    let line := pyStrip l
    if ignoreF line then finderAux isLabel ignoreF rest curr
    else if isLabel line then
      if curr.isEmpty then finderAux isLabel ignoreF rest [line]
      else curr :: finderAux isLabel ignoreF rest [line]
    else finderAux isLabel ignoreF rest (curr ++ [line])

/-- Translation of `FastaFinder` from `qiita_files/parse/fasta.py`. -/
def FastaFinder (lines : List (List Char)) : List (List (List Char)) :=
  finderAux is_fasta_label is_blank_or_comment lines []

/-- Translation of the per-record body of `parse_fasta` (with the default
`strict = True`): the record must start with a label line and contain at
least one sequence line; the label is the first line with the marker
dropped and stripped, the sequence the concatenation of the rest. -/
def parseFastaRec (rec : List (List Char)) : Except String (List Char × List Char) :=
  match rec with
  | [] => .error "Found Fasta record without label line"
  | l0 :: rest =>
    if !is_fasta_label l0 then .error "Found Fasta record without label line"
    else if rest.isEmpty then .error "Found label line without sequences"
    else .ok (pyStrip (l0.drop 1), rest.flatten)

/-- Translation of `parse_fasta` from `qiita_files/parse/fasta.py` over the
input file's lines, with default arguments. -/
def parse_fasta (lines : List (List Char)) :
    Except String (List (List Char × List Char)) :=
  (FastaFinder lines).mapM parseFastaRec

/-! ### Model of the LabelCodec of `qiita_files/demux.py` -/

/-- Modelled from the spec, §4.1 (the demux engine is not among the
available sources): from the label's first token, the index is the run of
decimal digits at its end (immediately preceding the first space of the
label) and the sample is everything before the `_` immediately preceding
that run.  Returns `(sample, index digits)`. -/
def parseLabelHead (head : List Char) : Option (List Char × List Char) :=
  let rev := head.reverse
  let dg := rev.takeWhile Char.isDigit
  if dg.isEmpty then none
  else
    match rev.dropWhile Char.isDigit with
    | u :: sRev => if u == Char.ofNat 95 then some (sRev.reverse, dg.reverse) else none
    | [] => none

/-- Parsed form of a record label, §4.1. -/
structure PLabel : Type where
  sample : List Char
  index : Nat
  orig_bc : List Char
  new_bc : List Char
  bc_diffs : Nat
deriving DecidableEq

/-- Split a byte string on single spaces (Python `split(b' ')` on the
canonical single-space label grammar of §4.1). -/
def splitSp : List Char → List (List Char)
  | [] => [[]]
  | c :: rest =>
    if c == Char.ofNat 32 then [] :: splitSp rest
    else
      match splitSp rest with
      | t :: ts => (c :: t) :: ts
      | [] => [[c]]

/-- Strip an expected leading key text (such as `orig_bc=`) from a token. -/
def dropToken (key tok : List Char) : Option (List Char) :=
  if tok.take key.length = key then some (tok.drop key.length) else none

/-- Modelled from the spec, §4.1: parse a label of the form
`<sample>_<index> orig_bc=<o> new_bc=<c> bc_diffs=<int>`; any missing
`key=value` token or missing numeric index is a `MalformedLabel`
(modelled as `none`). -/
def parse_label (label : List Char) : Option PLabel :=
  match splitSp label with
  | [head, t1, t2, t3] =>
    match parseLabelHead head with
    | none => none
    | some (sample, dg) =>
      match dropToken ("orig_bc=".toList) t1, dropToken ("new_bc=".toList) t2,
            dropToken ("bc_diffs=".toList) t3 with
      | some o, some c, some d =>
        if d.isEmpty || !d.all Char.isDigit then none
        else some ⟨sample, digitsToNat dg, o, c, digitsToNat d⟩
      | _, _, _ => none
  | _ => none

/-- Modelled from the spec, §4.1/§4.6: construction of a label, the exact
inverse of parsing, used when a record is fetched back out of the store. -/
def format_label (sample : List Char) (index : Nat) (o c : List Char)
    (d : Nat) : List Char :=
  sample ++ Char.ofNat 95 :: natDigits index ++ " orig_bc=".toList ++ o ++
    " new_bc=".toList ++ c ++ " bc_diffs=".toList ++ natDigits d

/-! ### Model of the demux store, StoreBuilder and Exporter of
`qiita_files/demux.py` -/

/-- A record as handed over by the record source: raw label bytes, sequence
bytes, decoded quality scores (empty for FASTA input). -/
structure RawRec : Type where
  label : List Char
  seq : List Char
  qual : List Int
deriving DecidableEq

/-- A record with its label already decoded by the LabelCodec. -/
structure PRec : Type where
  sample : List Char
  index : Nat
  orig_bc : List Char
  new_bc : List Char
  bc_diffs : Nat
  seq : List Char
  qual : List Int
deriving DecidableEq

/-- The raw record whose label is the canonical rendering of this parsed
record. -/
def PRec.rawOf (r : PRec) : RawRec :=
  ⟨format_label r.sample r.index r.orig_bc r.new_bc r.bc_diffs, r.seq, r.qual⟩

/-- Decode one raw record's label. -/
def parseRec (r : RawRec) : Option PRec :=
  (parse_label r.label).map
    (fun pl => ⟨pl.sample, pl.index, pl.orig_bc, pl.new_bc, pl.bc_diffs, r.seq, r.qual⟩)

/-- Sample ids in first-encounter order (store insertion order, §3). -/
def samplesOf (prs : List PRec) : List (List Char) :=
  prs.foldl (fun acc r => if r.sample ∈ acc then acc else acc ++ [r.sample]) []

/-- Modelled from the spec, §3: one SampleGroup of the store, with the
fixed-width datasets the StoreBuilder creates. -/
structure demuxGroup : Type where
  sample : List Char
  sequence : List (List Char)
  qual : List (List Int)
  barcode_original : List (List Char)
  barcode_corrected : List (List Char)
  barcode_error : List Nat
deriving DecidableEq

/-- One sample's records, in encounter order (the group's rows, §3). -/
def groupRows (prs : List PRec) (s : List Char) : List PRec :=
  prs.filter (fun r => r.sample == s)

/-- The group's fixed sequence width: the largest sequence length the
profiling pass saw for the sample. -/
def groupMaxLen (prs : List PRec) (s : List Char) : Nat :=
  ((groupRows prs s).map (fun r => r.seq.length)).foldl max 0

/-- The group's fixed barcode width: the first record's barcode width. -/
def groupBcLen (prs : List PRec) (s : List Char) : Nat :=
  (((groupRows prs s).head?.map (fun r => r.orig_bc.length)).getD 0)

/-- Modelled from the spec, §4.5: build one sample's group.  The group's
rows are that sample's records in encounter order; `max_len` is the
largest sequence length seen in pass 1, `barcode_len` the first record's
barcode width; rows are right-padded (NUL for bytes, zero for quality)
to the fixed widths; quality is all zeros for quality-free input. -/
def buildGroup (hq : Bool) (prs : List PRec) (s : List Char) : demuxGroup :=
  { sample := s,
    sequence := (groupRows prs s).map (fun r => padTo (groupMaxLen prs s) padByte r.seq),
    qual := (groupRows prs s).map
      (fun r => padToInt (groupMaxLen prs s) (if hq then r.qual else [])),
    barcode_original := (groupRows prs s).map
      (fun r => padTo (groupBcLen prs s) padByte r.orig_bc),
    barcode_corrected := (groupRows prs s).map
      (fun r => padTo (groupBcLen prs s) padByte r.new_bc),
    barcode_error := (groupRows prs s).map (fun r => r.bc_diffs) }

/-- Modelled from the spec, §3: the store, one group per sample plus the
format-derived quality flag recorded at build time. -/
structure demuxStore : Type where
  groups : List demuxGroup
  has_qual : Bool
deriving DecidableEq

/-- Build the store from already-decoded records. -/
def buildStore (hq : Bool) (prs : List PRec) : demuxStore :=
  ⟨(samplesOf prs).map (buildGroup hq prs), hq⟩

/-- Modelled from the spec, §4.5: `to_hdf5` of `qiita_files/demux.py` (not
among the available sources) over the record source's output: decode every
label through the LabelCodec (a malformed label is fatal) and write each
sample's records, in encounter order, into that sample's fixed-width
group; `hq` says whether the input format carries quality data. -/
def to_hdf5 (recs : List RawRec) (hq : Bool) : Option demuxStore :=
  (recs.mapM parseRec).map (buildStore hq)

/-- Requested export format (`UnsupportedFormat` values are rejected before
any of the logic modelled here runs, §7). -/
inductive OutFormat : Type
  | fastq
  | fasta
deriving DecidableEq

/-- Per-sample export file suffix, §6. -/
def extOf : OutFormat → List Char
  | .fastq => ".fastq".toList
  | .fasta => ".fna".toList

/-- Modelled from the spec, §4.6: the RecordFetcher.  Read row `i`, trim
the NUL padding to recover the true sequence, truncate the quality row to
the sequence's length (the sequence's true length is authoritative),
rebuild the label from the sample id, the row index and the row's barcode
data, and format the record in the requested format. -/
def fetchFormatted (fmt : OutFormat) (g : demuxGroup) (i : Nat) : List Char :=
  let seq := rstripChar padByte (g.sequence.getD i [])
  let label := format_label g.sample i
      (rstripChar padByte (g.barcode_original.getD i []))
      (rstripChar padByte (g.barcode_corrected.getD i []))
      (g.barcode_error.getD i 0)
  match fmt with
  | .fastq => format_fastq_record label seq ((g.qual.getD i []).take seq.length)
  | .fasta => format_fasta_record label seq ()

/-- All of one group's records, fetched in row order. -/
def fetchAll (fmt : OutFormat) (g : demuxGroup) : List (List Char) :=
  (List.range g.sequence.length).map (fetchFormatted fmt g)

/-- Look a sample's group up in the store. -/
def findGroup (st : demuxStore) (s : List Char) : Option demuxGroup :=
  st.groups.find? (fun g => g.sample == s)

/-- Modelled from the spec, §4.7: `to_ascii` of `qiita_files/demux.py`
(`Exporter.iterate`): iterate the given samples (all of them, in store
insertion order, when none are given), each sample in row order, and
format each record as FASTQ when the store carries quality data, else as
FASTA. -/
def to_ascii (st : demuxStore) (samples : Option (List (List Char))) :
    List (List Char) :=
  let names := samples.getD (st.groups.map demuxGroup.sample)
  (names.filterMap (findGroup st)).flatMap
    (fetchAll (if st.has_qual then .fastq else .fasta))

/-- Modelled from the spec, §4.7 `group_by_sample`: the same traversal
grouped by sample. -/
def to_per_sample_ascii (st : demuxStore) : List (List Char × List (List Char)) :=
  st.groups.map
    (fun g => (g.sample, fetchAll (if st.has_qual then .fastq else .fasta) g))

/-- Contents of one exported per-sample file: the concatenation of the
sample's formatted records. -/
def sampleFileContent (fmt : OutFormat) (g : demuxGroup) : List Char :=
  (fetchAll fmt g).flatten

/-- Modelled from the spec, §4.7: the per-worker unit of
`export_per_sample`: write one `<sample><ext>` file per requested sample. -/
def to_files (st : demuxStore) (fmt : OutFormat) (names : List (List Char)) :
    List (List Char × List Char) :=
  names.filterMap
    (fun s => (findGroup st s).map (fun g => (s ++ extOf fmt, sampleFileContent fmt g)))

/-- Sizes of the `jobs` contiguous, roughly equal chunks of a list of the
given length (static partition). -/
def chunkSizes (len jobs : Nat) : List Nat :=
  (List.range jobs).map (fun i => len * (i + 1) / jobs - len * i / jobs)

/-- Cut a list into chunks of the given sizes. -/
def splitBySizes : List Nat → List α → List (List α)
  | [], _ => []
  | k :: ks, l => l.take k :: splitBySizes ks (l.drop k)

/-- Modelled from the spec, §4.7: `to_per_sample_files`
(`export_per_sample`) of `qiita_files/demux.py`: partition the sample list
into `n_jobs` contiguous roughly-equal chunks and let each worker write
one file per sample of its chunk; the result lists every written file
with its contents. -/
def to_per_sample_files (st : demuxStore) (fmt : OutFormat) (n_jobs : Nat) :
    List (List Char × List Char) :=
  (splitBySizes (chunkSizes st.groups.length n_jobs)
      (st.groups.map demuxGroup.sample)).flatMap (to_files st fmt)

/-! ### Model of `_per_sample_lengths` and `_summarize_lengths` of
`qiita_files/demux.py` -/

/-- Append one observed length to a sample's list in an insertion-ordered
association list (the profiling dictionary). -/
def insertLen (acc : List (List Char × List Int)) (s : List Char) (n : Int) :
    List (List Char × List Int) :=
  match acc with
  | [] => [(s, [n])]
  | (t, ls) :: rest =>
    if t = s then (t, ls ++ [n]) :: rest else (t, ls) :: insertLen rest s n

/-- Modelled from the spec, §4.2: `_per_sample_lengths` of
`qiita_files/demux.py` for FASTA input: run the record source
(`parse_fasta`, translated above from the available source), decode each
label's sample id through the LabelCodec, and collect each sample's
sequence lengths in encounter order.  A parse failure is fatal (`none`). -/
def _per_sample_lengths (lines : List (List Char)) :
    Option (List (List Char × List Int)) :=
  match parse_fasta lines with
  | .error _ => none
  | .ok recs =>
    (recs.mapM (fun p => (parse_label p.1).map (fun pl => (pl.sample, (p.2.length : Int))))).map
      (fun pairs => pairs.foldl (fun acc q => insertLen acc q.1 q.2) [])

/-- Modelled from the spec, §3: the LengthStat record (the source's `stat`
namedtuple).  Because `np.std` is an irrational square root, the model
carries its square `stdSq` (the population variance); every other field is
exact. -/
structure stat : Type where
  min : Int
  max : Int
  mean : ℚ
  median : ℚ
  stdSq : ℚ
  n : Nat
  hist : List Nat
  hist_edge : List ℚ
deriving DecidableEq

/-- Histogram bin index of `x` for 10 equal-width bins spanning
`[mn, mx]`, the last bin closed (`np.histogram` convention); everything
falls into bin 0 when the span is degenerate. -/
def binIndex (mn mx x : Int) : Nat :=
  if mx = mn then 0 else min ((x - mn) * 10 / (mx - mn)).toNat 9

/-- Modelled from the spec, §4.3/§3: the LengthStat of one list of lengths:
min, max, mean, median (middle of the sorted list, or the average of the
two middles), population variance (divide by `n`), record count, 10-bin
histogram and its 11 edges. -/
def summarizeOne (lens : List Int) : stat :=
  let sorted := List.insertionSort (· ≤ ·) lens
  let n := lens.length
  let mn := sorted.getD 0 0
  let mx := sorted.getD (n - 1) 0
  let mean : ℚ := (lens.map (fun (x : Int) => (x : ℚ))).sum / n
  let median : ℚ :=
    if n % 2 = 1 then ((sorted.getD (n / 2) 0 : Int) : ℚ)
    else ((sorted.getD (n / 2 - 1) 0 : Int) + (sorted.getD (n / 2) 0 : Int) : ℚ) / 2
  let stdSq : ℚ := (lens.map (fun (x : Int) => ((x : ℚ) - mean) ^ 2)).sum / n
  let hist := (List.range 10).map (fun b => lens.countP (fun x => binIndex mn mx x == b))
  let hist_edge := (List.range 11).map (fun (i : Nat) => (mn : ℚ) + (i : ℚ) * ((mx : ℚ) - (mn : ℚ)) / 10)
  ⟨mn, mx, mean, median, stdSq, n, hist, hist_edge⟩

/-- Modelled from the spec, §4.3: `_summarize_lengths` of
`qiita_files/demux.py`: one LengthStat per sample plus the aggregate
LengthStat over the concatenation of all samples' lengths. -/
def _summarize_lengths (m : List (List Char × List Int)) :
    List (List Char × stat) × stat :=
  (m.map (fun p => (p.1, summarizeOne p.2)), summarizeOne (m.flatMap (fun p => p.2)))

/-! ### Proof-support definitions -/

/-- Invariant of a running buffered writer: the values written so far split
into a flushed part `f` (already in the destination, rows `0..f.length`)
and a pending part `p` (in the buffer), with the cursor and count
matching and the rest of the destination untouched. -/
def bufferInv (z : α) (d0 : List α) (cap : Nat) (w : List α) (b : buffer α) : Prop :=
  ∃ f p, w = f ++ p ∧ p.length < cap ∧ b.idx = f.length ∧ b.n = p.length ∧
    b.max_fill = cap ∧ b.dset = f ++ d0.drop f.length ∧
    b.buf = p ++ List.replicate (cap - p.length) z

/-- Well-formedness of one input record for the store round trip: no space
in the sample id or barcodes (the label grammar's separator), no NUL (the
pad byte) in the sequence or barcodes, and, when the input carries
quality data, one quality score per base. -/
def wfRec (hq : Bool) (r : PRec) : Bool :=
  r.sample.all (fun c => !(c == Char.ofNat 32)) &&
  r.orig_bc.all (fun c => !(c == Char.ofNat 32) && !(c == padByte)) &&
  r.new_bc.all (fun c => !(c == Char.ofNat 32) && !(c == padByte)) &&
  r.seq.all (fun c => !(c == padByte)) &&
  (!hq || r.qual.length == r.seq.length)

/-- Well-formedness of a record set: every record is well formed and,
within a sample, all barcodes share one width (the group's fixed
`barcode_len`). -/
def wfRecs (hq : Bool) (prs : List PRec) : Bool :=
  prs.all (wfRec hq) &&
  prs.all (fun r => prs.all (fun t => !(t.sample == r.sample) ||
    (t.orig_bc.length == r.orig_bc.length && t.new_bc.length == r.orig_bc.length)))

/-- The record the exporter is expected to produce for row `i` of sample
`s`, built directly from the original record per the spec's round-trip
wording: same sequence, same (length-truncated) quality, same barcode
fields, and the row index in place of the original label ordinal. -/
def specExport (hq : Bool) (s : List Char) (i : Nat) (r : PRec) : List Char :=
  if hq then
    format_fastq_record (format_label s i r.orig_bc r.new_bc r.bc_diffs) r.seq r.qual
  else
    format_fasta_record (format_label s i r.orig_bc r.new_bc r.bc_diffs) r.seq ()

/-- Map a function together with a running index over a list. -/
def mapWithIdx (F : Nat → α → β) : Nat → List α → List β
  | _, [] => []
  | i, r :: rs => F i r :: mapWithIdx F (i + 1) rs

/-- The full expected export of one sample: its records, in encounter
order, re-indexed from 0. -/
def expectedSampleOut (hq : Bool) (s : List Char) (prs : List PRec) : List (List Char) :=
  mapWithIdx (specExport hq s) 0 (groupRows prs s)

/-- The two FASTA records of the spec's concrete round-trip scenario
(§8): labels `a_1`, `a_2`, sequences `x`, `xy`. -/
def c4recs : List PRec :=
  [⟨"a".toList, 1, "abc".toList, "abc".toList, 0, "x".toList, []⟩,
   ⟨"a".toList, 2, "aby".toList, "ybc".toList, 2, "xy".toList, []⟩]

/-- The three FASTQ records of the variable-length test data
(`fqdata_variable_length` of the demux tests), with decoded qualities. -/
def fqVarRecs : List PRec :=
  [⟨"a".toList, 1, "abc".toList, "abc".toList, 0, "xyz".toList, [32, 33, 34]⟩,
   ⟨"b".toList, 1, "abw".toList, "wbc".toList, 4, "qwe".toList, [35, 37, 38]⟩,
   ⟨"b".toList, 2, "abw".toList, "wbc".toList, 4, "qwexx".toList, [35, 36, 37, 2, 38]⟩]

/-- The lines of the `seqdata_with_underscores` test input: sample ids with
embedded underscores. -/
def underscoreLines : List (List Char) :=
  [">a_x_1 orig_bc=abc new_bc=abc bc_diffs=0".toList, "x".toList,
   ">b_x_1 orig_bc=abx new_bc=xbc bc_diffs=1".toList, "xyz".toList,
   ">a_x_3 orig_bc=aby new_bc=ybc bc_diffs=2".toList, "xy".toList,
   ">a_x_2 orig_bc=abz new_bc=zbc bc_diffs=3".toList, "xyz".toList,
   ">b_x_2 orig_bc=abw new_bc=wbc bc_diffs=4".toList, "abcd".toList]

/-- The lines of the `fqdata` FASTQ test input. -/
def fqLines : List (List Char) :=
  ["@a_1 orig_bc=abc new_bc=abc bc_diffs=0".toList, "xyz".toList,
   "+".toList, "ABC".toList,
   "@b_1 orig_bc=abw new_bc=wbc bc_diffs=4".toList, "qwe".toList,
   "+".toList, "DFG".toList,
   "@b_2 orig_bc=abw new_bc=wbc bc_diffs=4".toList, "qwe".toList,
   "+".toList, "DEF".toList]

/-- The scalar-statistics contract of §8 for one length list: `min` ≤
`median` ≤ `max`, `n` is the list's length, the ten histogram counts sum
to `n`, the eleven histogram edges are non-decreasing and span
`[min, max]`, and the stored variance is the population variance
(`E[X²] − mean²`, the divide-by-`n` convention). -/
def StatProps (lens : List Int) (st : stat) : Prop :=
  (st.min : ℚ) ≤ st.median ∧ st.median ≤ (st.max : ℚ) ∧
  st.n = lens.length ∧ st.hist.sum = lens.length ∧
  st.hist_edge.length = 11 ∧ st.hist_edge.Sorted (· ≤ ·) ∧
  st.hist_edge.headI = (st.min : ℚ) ∧
  st.hist_edge.getLast? = some ((st.max : ℚ)) ∧
  st.stdSq = (lens.map (fun (x : Int) => (x : ℚ) ^ 2)).sum / lens.length - st.mean ^ 2

/-! ### General list lemmas -/

theorem list_set_append_len (p q : List α) (v : α) :
    (p ++ q).set p.length v = p ++ q.set 0 v := by
  induction p with
  | nil => simp
  | cons a t ih => simp [List.set_cons_succ, ih]

theorem list_drop_append_len (p t : List α) (k : Nat) :
    (p ++ t).drop (p.length + k) = t.drop k := by
  induction p with
  | nil => simp
  | cons a q ih => simpa [Nat.succ_add] using ih

theorem filterMap_eq_map_of (l : List β) (f : β → Option γ) (g : β → γ)
    (h : ∀ x ∈ l, f x = some (g x)) : l.filterMap f = l.map g := by
  induction l with
  | nil => rfl
  | cons a t ih =>
    rw [List.filterMap_cons, h a (by simp), List.map_cons,
      ih (fun x hx => h x (by simp [hx]))]

theorem flatMap_congr_of (l : List β) (f g : β → List γ)
    (h : ∀ x ∈ l, f x = g x) : l.flatMap f = l.flatMap g := by
  induction l with
  | nil => rfl
  | cons a t ih =>
    simp only [List.flatMap_cons, h a (by simp)]
    rw [ih (fun x hx => h x (by simp [hx]))]

theorem le_foldl_max (l : List Nat) : ∀ a : Nat,
    a ≤ l.foldl max a ∧ ∀ x ∈ l, x ≤ l.foldl max a := by
  induction l with
  | nil => intro a; simp
  | cons h t ih =>
    intro a
    have h1 := (ih (max a h)).1
    refine ⟨le_trans (le_max_left a h) h1, ?_⟩
    intro x hx
    rcases List.mem_cons.mp hx with rfl | hx
    · exact le_trans (le_max_right a x) h1
    · exact (ih (max a h)).2 x hx

theorem takeWhile_all_append (p : α → Bool) (xs : List α) (y : α) (ys : List α)
    (hxs : ∀ x ∈ xs, p x = true) (hy : p y = false) :
    (xs ++ y :: ys).takeWhile p = xs := by
  induction xs with
  | nil => simp [List.takeWhile, hy]
  | cons a t ih =>
    simp only [List.cons_append, List.takeWhile_cons, hxs a (by simp)]
    rw [ih (fun x hx => hxs x (by simp [hx]))]
    simp

theorem dropWhile_all_append (p : α → Bool) (xs : List α) (y : α) (ys : List α)
    (hxs : ∀ x ∈ xs, p x = true) (hy : p y = false) :
    (xs ++ y :: ys).dropWhile p = y :: ys := by
  induction xs with
  | nil => simp [List.dropWhile, hy]
  | cons a t ih =>
    simp only [List.cons_append, List.dropWhile_cons, hxs a (by simp)]
    exact ih (fun x hx => hxs x (by simp [hx]))

theorem dropWhile_eq_self_of (p : α → Bool) (l : List α)
    (h : ∀ x ∈ l, p x = false) : l.dropWhile p = l := by
  cases l with
  | nil => rfl
  | cons a t => simp [List.dropWhile_cons, h a (by simp)]

theorem rstripChar_pad (c : Char) (x : List Char) (k : Nat)
    (hx : ∀ a ∈ x, (a == c) = false) :
    rstripChar c (x ++ List.replicate k c) = x := by
  unfold rstripChar
  rw [List.reverse_append, List.reverse_replicate]
  have h1 : ∀ n, (List.replicate n c ++ x.reverse).dropWhile (fun a => a == c) =
      x.reverse.dropWhile (fun a => a == c) := by
    intro n
    induction n with
    | zero => simp
    | succ m ih => simpa [List.replicate_succ, List.dropWhile_cons] using ih
  rw [h1, dropWhile_eq_self_of _ _ (fun a ha => hx a (List.mem_reverse.mp ha)),
    List.reverse_reverse]

/-! ### C8: `format_fasta_record` -/

/-- C8: when the export format is fasta, every exported record is exactly
the label line followed by the sequence line, and `format_fasta_record`
returns the same bytes for every value of its `qual` argument (here even
across different types of that argument). -/
theorem format_fasta_record_ignores_qual (seqid seq : List Char) (q1 : γ) (q2 : δ) :
    format_fasta_record seqid seq q1 = format_fasta_record seqid seq q2 ∧
    format_fasta_record seqid seq q1 =
      Char.ofNat 62 :: seqid ++ Char.ofNat 10 :: seq ++ [Char.ofNat 10] := by
  refine ⟨rfl, ?_⟩
  simp [format_fasta_record, List.intercalate]

/-! ### C10: `open_file` -/

/-- C10: `open_file` passes a non-path argument through unchanged and never
closes it (even when the body raises), while a `str`/`bytes` path is
opened (as an HDF5 file when `is_hdf5` says so, via the builtin `open`
otherwise) and the new handle is closed on every exit path; the body's
outcome is always propagated unchanged. -/
theorem open_file_frame (is_hdf5 : PyArg → Bool) (v : PyArg)
    (body : FileHandle → Except ε α) :
    (open_file is_hdf5 v body).result = body (open_file is_hdf5 v body).yielded ∧
    (match v with
     | .filelike o =>
       (open_file is_hdf5 v body).yielded = .raw o ∧
       (open_file is_hdf5 v body).closedYielded = false
     | _ =>
       (open_file is_hdf5 v body).closedYielded = true ∧
       (open_file is_hdf5 v body).yielded =
         (if is_hdf5 v then .h5file v else .opened v)) := by
  refine ⟨rfl, ?_⟩
  cases v with
  | filelike o => exact ⟨rfl, rfl⟩
  | str s =>
    refine ⟨?_, ?_⟩ <;> simp [open_file, _get_filehandle, _is_string_or_bytes] <;> split <;> rfl
  | bytes s =>
    refine ⟨?_, ?_⟩ <;> simp [open_file, _get_filehandle, _is_string_or_bytes] <;> split <;> rfl

/-! ### C6: parallel per-sample export equals the serial run -/

/-- C6: over a store holding exactly two samples, `to_per_sample_files`
with two jobs produces exactly the two files `<sample><ext>` (extension
chosen by the requested format), with the same names and contents as the
serial single-job run. -/
theorem to_per_sample_files_two_jobs (g1 g2 : demuxGroup) (hq : Bool) (fmt : OutFormat) :
    to_per_sample_files ⟨[g1, g2], hq⟩ fmt 2 = to_per_sample_files ⟨[g1, g2], hq⟩ fmt 1 ∧
    (to_per_sample_files ⟨[g1, g2], hq⟩ fmt 2).map Prod.fst =
      [g1.sample ++ extOf fmt, g2.sample ++ extOf fmt] ∧
    (to_per_sample_files ⟨[g1, g2], hq⟩ fmt 2).length = 2 := by
  have hsz2 : chunkSizes 2 2 = [1, 1] := rfl
  have hsz1 : chunkSizes 2 1 = [2] := rfl
  have hfind1 : findGroup ⟨[g1, g2], hq⟩ g1.sample = some g1 := by
    simp [findGroup, List.find?]
  have hfind2 : ∃ g, findGroup ⟨[g1, g2], hq⟩ g2.sample = some g ∧ g.sample = g2.sample := by
    by_cases h : g1.sample = g2.sample
    · exact ⟨g1, by simp [findGroup, List.find?, h], h⟩
    · refine ⟨g2, ?_, rfl⟩
      have hb : (g1.sample == g2.sample) = false := by
        simpa using h
      simp [findGroup, List.find?, hb]
  obtain ⟨g, hg, _⟩ := hfind2
  have lhs2 : to_per_sample_files ⟨[g1, g2], hq⟩ fmt 2 =
      [(g1.sample ++ extOf fmt, sampleFileContent fmt g1),
       (g2.sample ++ extOf fmt, sampleFileContent fmt g)] := by
    show (splitBySizes (chunkSizes 2 2) [g1.sample, g2.sample]).flatMap
        (to_files ⟨[g1, g2], hq⟩ fmt) = _
    rw [hsz2]
    simp [splitBySizes, to_files, hfind1, hg]
  have lhs1 : to_per_sample_files ⟨[g1, g2], hq⟩ fmt 1 =
      [(g1.sample ++ extOf fmt, sampleFileContent fmt g1),
       (g2.sample ++ extOf fmt, sampleFileContent fmt g)] := by
    show (splitBySizes (chunkSizes 2 1) [g1.sample, g2.sample]).flatMap
        (to_files ⟨[g1, g2], hq⟩ fmt) = _
    rw [hsz1]
    simp [splitBySizes, to_files, hfind1, hg]
  rw [lhs2, lhs1]
  exact ⟨rfl, rfl, rfl⟩

/-! ### C9: `is_full` and write bounds -/

theorem buffer_run_n_lt (z : α) (ops : List (BufOp α)) :
    ∀ b : buffer α, b.n < b.max_fill →
      (buffer.run z b ops).n < (buffer.run z b ops).max_fill ∧
      (buffer.run z b ops).max_fill = b.max_fill := by
  induction ops with
  | nil => intro b h; exact ⟨h, rfl⟩
  | cons op rest ih =>
    intro b h
    have hstep : (buffer.step z b op).n < (buffer.step z b op).max_fill ∧
        (buffer.step z b op).max_fill = b.max_fill := by
      cases op with
      | write v =>
        by_cases hfull : b.n + 1 = b.max_fill
        · have heq : buffer.step z b (BufOp.write v) =
              ({ b with buf := b.buf.set b.n v, n := b.n + 1 } : buffer α).flush z := by
            simp [buffer.step, buffer.write, hfull]
          rw [heq]
          refine ⟨?_, rfl⟩
          show (0 : Nat) < b.max_fill
          omega
        · have heq : buffer.step z b (BufOp.write v) =
              ({ b with buf := b.buf.set b.n v, n := b.n + 1 } : buffer α) := by
            simp [buffer.step, buffer.write, hfull]
          rw [heq]
          refine ⟨?_, rfl⟩
          show b.n + 1 < b.max_fill
          omega
      | flushNow =>
        refine ⟨?_, rfl⟩
        show (0 : Nat) < b.max_fill
        omega
    have hrun : buffer.run z b (op :: rest) = buffer.run z (buffer.step z b op) rest := rfl
    rw [hrun]
    obtain ⟨i1, i2⟩ := ih (buffer.step z b op) hstep.1
    exact ⟨i1, by rw [i2, hstep.2]⟩

/-- C9: `is_full` holds exactly when the buffered count has reached (or,
defensively, exceeded) the capacity, and a run of client calls on a fresh
writer never makes a `write` place a row at or past `buffer_capacity`:
the slot a `write` uses is the count `n` at that moment, which stays
strictly below `max_fill` before each call. -/
theorem is_full_iff_and_write_in_bounds (z : α) (d0 : List α) (cap : Nat)
    (ops : List (BufOp α)) (hcap : 0 < cap) :
    (∀ b : buffer α, b.is_full = true ↔ b.max_fill ≤ b.n) ∧
    (∀ pre v suf, ops = pre ++ BufOp.write v :: suf →
      (buffer.run z (buffer.mk0 z d0 cap) pre).n <
        (buffer.run z (buffer.mk0 z d0 cap) pre).max_fill ∧
      (buffer.run z (buffer.mk0 z d0 cap) pre).max_fill = cap) := by
  constructor
  · intro b
    simp [buffer.is_full]
  · intro pre v suf _
    have h0 : (buffer.mk0 z d0 cap : buffer α).n < (buffer.mk0 z d0 cap : buffer α).max_fill := by
      simpa [buffer.mk0] using hcap
    obtain ⟨h1, h2⟩ := buffer_run_n_lt z pre (buffer.mk0 z d0 cap) h0
    exact ⟨h1, h2⟩

/-- C9 witness: a concrete instantiation of the bounds theorem. -/
theorem is_full_iff_and_write_in_bounds_witness :
    0 < 2 ∧
    ((∀ b : buffer Int, b.is_full = true ↔ b.max_fill ≤ b.n) ∧
     (∀ pre v suf, [BufOp.write (5 : Int), BufOp.flushNow] = pre ++ BufOp.write v :: suf →
       (buffer.run 0 (buffer.mk0 0 [0, 0, 0] 2) pre).n <
         (buffer.run 0 (buffer.mk0 0 [0, 0, 0] 2) pre).max_fill ∧
       (buffer.run 0 (buffer.mk0 0 [0, 0, 0] 2) pre).max_fill = 2)) :=
  ⟨by decide, is_full_iff_and_write_in_bounds 0 [0, 0, 0] 2 [BufOp.write 5, BufOp.flushNow] (by decide)⟩

/-! ### C2: buffered writes land contiguously, exactly once -/

theorem flush_to_inv (z : α) (d0 : List α) (cap : Nat) (hcap : 0 < cap)
    (f p : List α) (b : buffer α)
    (hidx : b.idx = f.length) (hn : b.n = p.length) (hmf : b.max_fill = cap)
    (hdset : b.dset = f ++ d0.drop f.length)
    (hbuf : ∃ r, b.buf = p ++ r) :
    bufferInv z d0 cap (f ++ p) (b.flush z) := by
  obtain ⟨r, hbuf⟩ := hbuf
  refine ⟨f ++ p, [], by simp, hcap, ?_, rfl, ?_, ?_, ?_⟩
  · show b.idx + b.n = (f ++ p).length
    simp [hidx, hn]
  · show b.max_fill = cap
    exact hmf
  · show b.dset.take b.idx ++ b.buf.take b.n ++ b.dset.drop (b.idx + b.n) =
      (f ++ p) ++ d0.drop (f ++ p).length
    rw [hidx, hn, hdset, hbuf, List.take_left, List.take_left, list_drop_append_len,
      List.drop_drop]
    simp [List.append_assoc, List.length_append, Nat.add_comm]
  · show List.replicate b.max_fill z = [] ++ List.replicate (cap - [].length) z
    simp [hmf]

theorem bufferInv_write (z : α) (d0 : List α) (cap : Nat) (w : List α)
    (b : buffer α) (v : α) (hcap : 0 < cap)
    (hInv : bufferInv z d0 cap w b) :
    bufferInv z d0 cap (w ++ [v]) (b.write z v) := by
  obtain ⟨f, p, hw, hp, hidx, hn, hmf, hdset, hbuf⟩ := hInv
  have hbuf1 : b.buf.set b.n v = (p ++ [v]) ++ List.replicate (cap - (p.length + 1)) z := by
    rw [hbuf, hn, list_set_append_len]
    have hk : cap - p.length = (cap - (p.length + 1)) + 1 := by omega
    rw [hk, List.replicate_succ]
    simp
  by_cases hfull : b.n + 1 = b.max_fill
  · have heq : b.write z v = ({ b with buf := b.buf.set b.n v, n := b.n + 1 } : buffer α).flush z := by
      simp [buffer.write, hfull]
    rw [heq, hw, List.append_assoc]
    have := flush_to_inv z d0 cap hcap f (p ++ [v])
      ({ b with buf := b.buf.set b.n v, n := b.n + 1 } : buffer α)
      (by simpa using hidx) (by simp [hn]) (by simpa using hmf) (by simpa using hdset)
      ⟨List.replicate (cap - (p.length + 1)) z, by simpa using hbuf1⟩
    simpa using this
  · have heq : b.write z v = ({ b with buf := b.buf.set b.n v, n := b.n + 1 } : buffer α) := by
      simp [buffer.write, hfull]
    rw [heq, hw, List.append_assoc]
    refine ⟨f, p ++ [v], rfl, ?_, by simpa using hidx, by simp [hn], by simpa using hmf,
      by simpa using hdset, ?_⟩
    · simp only [List.length_append, List.length_singleton]
      omega
    · show b.buf.set b.n v = (p ++ [v]) ++ List.replicate (cap - (p ++ [v]).length) z
      simpa using hbuf1

theorem bufferInv_run (z : α) (d0 : List α) (cap : Nat) (hcap : 0 < cap) :
    ∀ (ops : List (BufOp α)) (w : List α) (b : buffer α),
      bufferInv z d0 cap w b →
      bufferInv z d0 cap (w ++ writtenValues ops) (buffer.run z b ops) := by
  intro ops
  induction ops with
  | nil =>
    intro w b hInv
    simpa [writtenValues, buffer.run] using hInv
  | cons op rest ih =>
    intro w b hInv
    have hrun : buffer.run z b (op :: rest) = buffer.run z (buffer.step z b op) rest := rfl
    rw [hrun]
    cases op with
    | write v =>
      have hw := bufferInv_write z d0 cap w b v hcap hInv
      have := ih (w ++ [v]) (b.write z v) hw
      simpa [writtenValues, List.append_assoc] using this
    | flushNow =>
      obtain ⟨f, p, hweq, hp, hidx, hn, hmf, hdset, hbuf⟩ := hInv
      have hfl := flush_to_inv z d0 cap hcap f p b hidx hn hmf hdset
        ⟨List.replicate (cap - p.length) z, hbuf⟩
      rw [← hweq] at hfl
      have := ih w (b.flush z) hfl
      simpa [writtenValues] using this

/-- C2: for any sequence of writes interleaved with forced flushes on a
fresh writer, ending with finalization, the destination holds exactly the
written values, in order, contiguously from row 0, the untouched suffix
intact and the length unchanged (nothing written at or past the declared
length); the cursor ends at the written count, a flush of an empty buffer
is a no-op, and a second finalization changes nothing (no re-write, no
cursor movement). -/
theorem buffered_writes_contiguous (z : α) (d0 : List α) (cap : Nat)
    (ops : List (BufOp α)) (hcap : 0 < cap)
    (hlen : (writtenValues ops).length ≤ d0.length) :
    ((buffer.run z (buffer.mk0 z d0 cap) ops).flush z).dset =
      writtenValues ops ++ d0.drop (writtenValues ops).length ∧
    ((buffer.run z (buffer.mk0 z d0 cap) ops).flush z).dset.length = d0.length ∧
    ((buffer.run z (buffer.mk0 z d0 cap) ops).flush z).idx = (writtenValues ops).length ∧
    ((buffer.run z (buffer.mk0 z d0 cap) ops).flush z).flush z =
      (buffer.run z (buffer.mk0 z d0 cap) ops).flush z := by
  have h0 : bufferInv z d0 cap [] (buffer.mk0 z d0 cap) :=
    ⟨[], [], rfl, hcap, rfl, rfl, rfl, by simp [buffer.mk0], by simp [buffer.mk0]⟩
  have hrun := bufferInv_run z d0 cap hcap ops [] _ h0
  rw [List.nil_append] at hrun
  obtain ⟨f, p, hweq, hp, hidx, hn, hmf, hdset, hbuf⟩ := hrun
  have hfin := flush_to_inv z d0 cap hcap f p _ hidx hn hmf hdset
    ⟨List.replicate (cap - p.length) z, hbuf⟩
  rw [← hweq] at hfin
  obtain ⟨f2, p2, hweq2, hp2, hidx2, hn2, hmf2, hdset2, hbuf2⟩ := hfin
  have hn0 : ((buffer.run z (buffer.mk0 z d0 cap) ops).flush z).n = 0 := rfl
  have hp2nil : p2 = [] := by
    have := hn2.symm.trans hn0
    exact List.length_eq_zero.mp this
  subst hp2nil
  rw [List.append_nil] at hweq2
  rw [← hweq2] at hidx2 hdset2
  refine ⟨hdset2, ?_, hidx2, ?_⟩
  · rw [hdset2]
    simp only [List.length_append, List.length_drop]
    omega
  · set fin := (buffer.run z (buffer.mk0 z d0 cap) ops).flush z with hfin_def
    have hfl2 := flush_to_inv z d0 cap hcap (writtenValues ops) [] fin hidx2 hn2 hmf2
      (by simpa using hdset2) ⟨fin.buf, by simp⟩
    obtain ⟨f3, p3, hweq3, hp3, hidx3, hn3, hmf3, hdset3, hbuf3⟩ := hfl2
    have hp3nil : p3 = [] := List.length_eq_zero.mp (hn3.symm.trans rfl)
    subst hp3nil
    simp only [List.append_nil] at hweq3
    subst hweq3
    cases hfl : fin.flush z with
    | mk ds bf nn ix mf =>
      cases hfin2 : fin with
      | mk ds0 bf0 nn0 ix0 mf0 =>
        simp only [hfl] at hdset3 hidx3 hn3 hmf3 hbuf3
        simp only [hfin2] at hdset2 hidx2 hn2 hmf2 hbuf2 hn0
        congr 1
        · rw [hdset3, hdset2]
        · rw [hbuf3, hbuf2]
        · rw [hn3, hn2]
        · rw [hidx3, hidx2]
        · rw [hmf3, hmf2]

/-- C2 witness: three writes with one interposed flush on capacity 2 over a
five-row destination. -/
theorem buffered_writes_contiguous_witness :
    (0 < 2 ∧ (writtenValues [BufOp.write (1 : Int), BufOp.write 2, BufOp.flushNow,
        BufOp.write 3]).length ≤ ([0, 0, 0, 0, 0] : List Int).length) ∧
    (((buffer.run 0 (buffer.mk0 0 [0, 0, 0, 0, 0] 2)
        [BufOp.write (1 : Int), BufOp.write 2, BufOp.flushNow, BufOp.write 3]).flush 0).dset =
      writtenValues [BufOp.write (1 : Int), BufOp.write 2, BufOp.flushNow, BufOp.write 3] ++
        ([0, 0, 0, 0, 0] : List Int).drop (writtenValues [BufOp.write (1 : Int), BufOp.write 2,
          BufOp.flushNow, BufOp.write 3]).length ∧
     ((buffer.run 0 (buffer.mk0 0 [0, 0, 0, 0, 0] 2)
        [BufOp.write (1 : Int), BufOp.write 2, BufOp.flushNow, BufOp.write 3]).flush 0).dset.length =
      ([0, 0, 0, 0, 0] : List Int).length ∧
     ((buffer.run 0 (buffer.mk0 0 [0, 0, 0, 0, 0] 2)
        [BufOp.write (1 : Int), BufOp.write 2, BufOp.flushNow, BufOp.write 3]).flush 0).idx =
      (writtenValues [BufOp.write (1 : Int), BufOp.write 2, BufOp.flushNow, BufOp.write 3]).length ∧
     ((buffer.run 0 (buffer.mk0 0 [0, 0, 0, 0, 0] 2)
        [BufOp.write (1 : Int), BufOp.write 2, BufOp.flushNow, BufOp.write 3]).flush 0).flush 0 =
      (buffer.run 0 (buffer.mk0 0 [0, 0, 0, 0, 0] 2)
        [BufOp.write (1 : Int), BufOp.write 2, BufOp.flushNow, BufOp.write 3]).flush 0) :=
  ⟨⟨by decide, by decide⟩,
   buffered_writes_contiguous 0 [0, 0, 0, 0, 0] 2
     [BufOp.write 1, BufOp.write 2, BufOp.flushNow, BufOp.write 3] (by decide) (by decide)⟩

/-! ### C7: `parse_fastq` raises exactly on malformed input -/

theorem parseFastqChunk_spec (s e : Bool) (off : Int) (ch : Chunk4) :
    (chunkBad s e off ch = true → (parseFastqChunk s e off ch).isOk = false) ∧
    (chunkBad s e off ch = false → parseFastqChunk s e off ch = .ok (fastqGoodOf off ch)) := by
  obtain ⟨l1, o2, o3, o4⟩ := ch
  by_cases hblank : pyStrip l1 = []
  · constructor <;> intro h <;>
      simp_all [chunkBad, fastqChunkIncomplete, fastqChunkMismatch, fastqChunkBadQual,
        parseFastqChunk, fastqGoodOf, fastqChunkComplete, hblank]
  · have hne : (pyStrip l1).isEmpty = false := by
      simpa [List.isEmpty_iff] using hblank
    cases o2 with
    | none =>
      constructor <;> intro h <;>
        simp_all [chunkBad, fastqChunkIncomplete, fastqChunkComplete, parseFastqChunk,
          hblank, Except.isOk, Except.toBool]
    | some q2 =>
      cases o3 with
      | none =>
        constructor <;> intro h <;>
          simp_all [chunkBad, fastqChunkIncomplete, fastqChunkComplete, parseFastqChunk,
            hblank, Except.isOk, Except.toBool]
      | some q3 =>
        cases o4 with
        | none =>
          constructor <;> intro h <;>
            simp_all [chunkBad, fastqChunkIncomplete, fastqChunkComplete, parseFastqChunk,
              hblank, Except.isOk, Except.toBool]
        | some q4 =>
          by_cases hm : ((pyStrip l1).drop 1 : List Char) = (pyStrip q3).drop 1 <;>
          by_cases hq : ((pyStrip q4).map (phredDecode off)).any
              (fun x => decide (x < 0) || decide (62 < x)) = true <;>
          cases s <;> cases e <;>
            constructor <;> intro h <;>
            simp_all [chunkBad, fastqChunkIncomplete, fastqChunkMismatch, fastqChunkBadQual,
              fastqChunkComplete, parseFastqChunk, fastqGoodOf, hblank, Except.isOk,
              Except.toBool] <;>
            try (obtain ⟨a, ha, hpa⟩ := hq) <;> try (have hcontr2 := h a ha) <;>
            try (rcases hpa with h1 | h1) <;> omega

theorem parseFastqGo_ok (s e : Bool) (off : Int) :
    ∀ chs : List Chunk4, (∀ ch ∈ chs, chunkBad s e off ch = false) →
      parseFastqGo s e off chs = .ok (chs.filterMap (fastqGoodOf off)) := by
  intro chs
  induction chs with
  | nil => intro _; rfl
  | cons ch rest ih =>
    intro h
    have hch := (parseFastqChunk_spec s e off ch).2 (h ch (by simp))
    have hrest := ih (fun c hc => h c (by simp [hc]))
    simp only [parseFastqGo, hch, List.filterMap_cons]
    cases hg : fastqGoodOf off ch <;> simp [hg, hrest, Except.map]

theorem parseFastqGo_err (s e : Bool) (off : Int) :
    ∀ chs : List Chunk4, (∃ ch ∈ chs, chunkBad s e off ch = true) →
      (parseFastqGo s e off chs).isOk = false := by
  intro chs
  induction chs with
  | nil => rintro ⟨ch, h, _⟩; cases h
  | cons ch rest ih =>
    rintro ⟨c, hc, hbad⟩
    rcases List.mem_cons.mp hc with rfl | hc2
    · have h1 := (parseFastqChunk_spec s e off c).1 hbad
      cases hres : parseFastqChunk s e off c with
      | error msg => simp [parseFastqGo, hres, Except.isOk, Except.toBool]
      | ok v =>
        rw [hres] at h1
        simp [Except.isOk, Except.toBool] at h1
    · have hrest := ih ⟨c, hc2, hbad⟩
      cases hres : parseFastqChunk s e off ch with
      | error msg => simp [parseFastqGo, hres, Except.isOk, Except.toBool]
      | ok v =>
        cases v with
        | none =>
          simpa [parseFastqGo, hres] using hrest
        | some r =>
          simp only [parseFastqGo, hres]
          cases hgo : parseFastqGo s e off rest with
          | error m => simp [Except.isOk, Except.toBool, Except.map]
          | ok rs =>
            rw [hgo] at hrest
            simp [Except.isOk, Except.toBool] at hrest

/-- C7: with a valid phred offset, `parse_fastq` fails exactly when the
input is malformed — an incomplete (1–3 line) trailing record, an id
mismatch under `strict`, or a decoded quality score outside `[0, 62]`
under `enforce_qual_range` — and on success yields exactly one
(label, sequence, quality) triple per well-formed 4-line record, in
order; groups whose stripped first line is blank (such as a trailing
blank line) are skipped without error. -/
theorem parse_fastq_error_characterization (lines : List (List Char)) (strict enforce : Bool) :
    ((parse_fastq lines strict enforce 33).isOk = true ↔
      ¬(hasIncompleteEnd lines = true ∨ (strict = true ∧ hasIdMismatch lines = true) ∨
        (enforce = true ∧ hasBadQual 33 lines = true))) ∧
    ((parse_fastq lines strict enforce 33).isOk = true →
      parse_fastq lines strict enforce 33 = .ok (fastqGoodRecords 33 lines)) := by
  have hunf : parse_fastq lines strict enforce 33 =
      parseFastqGo strict enforce 33 (chunk4 lines) := by
    simp [parse_fastq]
  have hiff : (∃ ch ∈ chunk4 lines, chunkBad strict enforce 33 ch = true) ↔
      (hasIncompleteEnd lines = true ∨ (strict = true ∧ hasIdMismatch lines = true) ∨
        (enforce = true ∧ hasBadQual 33 lines = true)) := by
    simp only [chunkBad, hasIncompleteEnd, hasIdMismatch, hasBadQual, List.any_eq_true,
      Bool.or_eq_true, Bool.and_eq_true]
    constructor
    · rintro ⟨ch, hm, (h | h) | h⟩
      · exact Or.inl ⟨ch, hm, h⟩
      · exact Or.inr (Or.inl ⟨h.1, ch, hm, h.2⟩)
      · exact Or.inr (Or.inr ⟨h.1, ch, hm, h.2⟩)
    · rintro (⟨ch, hm, h⟩ | ⟨hs, ch, hm, h⟩ | ⟨he, ch, hm, h⟩)
      · exact ⟨ch, hm, Or.inl (Or.inl h)⟩
      · exact ⟨ch, hm, Or.inl (Or.inr ⟨hs, h⟩)⟩
      · exact ⟨ch, hm, Or.inr ⟨he, h⟩⟩
  by_cases hbad : ∃ ch ∈ chunk4 lines, chunkBad strict enforce 33 ch = true
  · have herr := parseFastqGo_err strict enforce 33 (chunk4 lines) hbad
    rw [hunf]
    constructor
    · rw [herr]
      constructor
      · intro hcontr
        cases hcontr
      · intro hnot
        exact absurd (hiff.mp hbad) hnot
    · intro hok
      rw [herr] at hok
      cases hok
  · have hall : ∀ ch ∈ chunk4 lines, chunkBad strict enforce 33 ch = false := by
      intro ch hc
      by_contra hne2
      exact hbad ⟨ch, hc, by simpa using hne2⟩
    have hok := parseFastqGo_ok strict enforce 33 (chunk4 lines) hall
    rw [hunf, hok]
    refine ⟨⟨fun _ hcontr => hbad (hiff.mpr hcontr), fun _ => rfl⟩, fun _ => rfl⟩

/-- C7 witness: the three-record FASTQ test input parses cleanly with
`enforce_qual_range` on, yielding its three records. -/
theorem parse_fastq_error_characterization_witness :
    (parse_fastq fqLines false true 33).isOk = true ∧
    parse_fastq fqLines false true 33 = .ok (fastqGoodRecords 33 fqLines) := by
  have h := parse_fastq_error_characterization fqLines false true
  have h1 : (parse_fastq fqLines false true 33).isOk = true := h.1.mpr (by decide)
  exact ⟨h1, h.2 h1⟩

/-! ### C3: the LengthStat contract -/

theorem sum_ite_range_ge (v : Nat) :
    ∀ k, k ≤ v → ((List.range k).map (fun b => if (v == b) = true then 1 else 0)).sum = 0 := by
  intro k
  induction k with
  | zero => intro _; rfl
  | succ a ih =>
    intro hk
    rw [List.range_succ, List.map_append, List.sum_append, ih (by omega)]
    simp only [List.map_cons, List.map_nil, List.sum_cons, List.sum_nil, beq_iff_eq]
    have hv : ¬v = a := by omega
    simp [hv]

theorem sum_ite_range_hit (v k : Nat) (h : v < k) :
    ((List.range k).map (fun b => if (v == b) = true then 1 else 0)).sum = 1 := by
  induction k with
  | zero => omega
  | succ a ih =>
    rw [List.range_succ, List.map_append, List.sum_append]
    by_cases hv : v = a
    · subst hv
      rw [sum_ite_range_ge v v (le_refl v)]
      simp
    · rw [ih (by omega)]
      simp only [List.map_cons, List.map_nil, List.sum_cons, List.sum_nil, beq_iff_eq]
      simp [hv]

theorem sum_map_add_nat (l : List β) (f g : β → Nat) :
    (l.map (fun x => f x + g x)).sum = (l.map f).sum + (l.map g).sum := by
  induction l with
  | nil => rfl
  | cons a t ih => simp [ih]; omega

theorem count_partition (l : List Int) (f : Int → Nat) (k : Nat)
    (hf : ∀ x ∈ l, f x < k) :
    ((List.range k).map (fun b => l.countP (fun x => f x == b))).sum = l.length := by
  induction l with
  | nil => simp [List.countP_nil]
  | cons x t ih =>
    have hfun : (fun b => (x :: t).countP (fun y => f y == b)) =
        fun b => t.countP (fun y => f y == b) + (if (f x == b) = true then 1 else 0) := by
      funext b
      rw [List.countP_cons]
    rw [hfun, sum_map_add_nat, ih (fun y hy => hf y (by simp [hy])),
      sum_ite_range_hit (f x) k (hf x (by simp))]
    simp

theorem sum_sq_dev (l : List ℚ) (m : ℚ) :
    (l.map (fun x => (x - m) ^ 2)).sum =
      (l.map (fun x => x ^ 2)).sum - 2 * m * l.sum + l.length * m ^ 2 := by
  induction l with
  | nil => simp
  | cons a t ih =>
    simp only [List.map_cons, List.sum_cons, List.length_cons, ih]
    push_cast
    ring

theorem binIndex_lt (mn mx x : Int) : binIndex mn mx x < 10 := by
  unfold binIndex
  split
  · omega
  · have := Nat.min_le_right (((x - mn) * 10 / (mx - mn)).toNat) 9
    omega

theorem sorted_getD_le (l : List Int) (hs : List.Sorted (· ≤ ·) l) (i j : Nat)
    (hij : i ≤ j) (hj : j < l.length) : l.getD i 0 ≤ l.getD j 0 := by
  have hi : i < l.length := lt_of_le_of_lt hij hj
  rw [List.getD_eq_getElem l 0 hi, List.getD_eq_getElem l 0 hj]
  rcases Nat.eq_or_lt_of_le hij with rfl | hlt
  · exact le_refl _
  · have := List.pairwise_iff_get.mp hs ⟨i, hi⟩ ⟨j, hj⟩ hlt
    simpa using this

theorem statProps_summarizeOne (lens : List Int) (h : lens ≠ []) :
    StatProps lens (summarizeOne lens) := by
  have hperm := List.perm_insertionSort (· ≤ ·) lens
  have hsort : List.Sorted (· ≤ ·) (List.insertionSort (· ≤ ·) lens) :=
    List.sorted_insertionSort (· ≤ ·) lens
  have hlen : (List.insertionSort (· ≤ ·) lens).length = lens.length := hperm.length_eq
  have hn : 0 < lens.length := List.length_pos.mpr h
  set sorted := List.insertionSort (· ≤ ·) lens with hsorted_def
  set n := lens.length with hn_def
  have hmin : (summarizeOne lens).min = sorted.getD 0 0 := rfl
  have hmax : (summarizeOne lens).max = sorted.getD (n - 1) 0 := rfl
  have hmnmx : sorted.getD 0 0 ≤ sorted.getD (n - 1) 0 :=
    sorted_getD_le sorted hsort 0 (n - 1) (by omega) (by omega)
  refine ⟨?_, ?_, rfl, ?_, ?_, ?_, ?_, ?_, ?_⟩
  · -- min ≤ median
    rw [hmin]
    show (sorted.getD 0 0 : ℚ) ≤
      (if n % 2 = 1 then ((sorted.getD (n / 2) 0 : Int) : ℚ)
       else ((sorted.getD (n / 2 - 1) 0 : Int) + (sorted.getD (n / 2) 0 : Int) : ℚ) / 2)
    have hb : sorted.getD 0 0 ≤ sorted.getD (n / 2) 0 :=
      sorted_getD_le sorted hsort 0 (n / 2) (by omega) (by omega)
    have ha : sorted.getD 0 0 ≤ sorted.getD (n / 2 - 1) 0 :=
      sorted_getD_le sorted hsort 0 (n / 2 - 1) (by omega) (by omega)
    split
    · exact_mod_cast hb
    · push_cast
      have hb' : ((sorted.getD 0 0 : Int) : ℚ) ≤ ((sorted.getD (n / 2) 0 : Int) : ℚ) := by
        exact_mod_cast hb
      have ha' : ((sorted.getD 0 0 : Int) : ℚ) ≤ ((sorted.getD (n / 2 - 1) 0 : Int) : ℚ) := by
        exact_mod_cast ha
      linarith
  · -- median ≤ max
    rw [hmax]
    show (if n % 2 = 1 then ((sorted.getD (n / 2) 0 : Int) : ℚ)
       else ((sorted.getD (n / 2 - 1) 0 : Int) + (sorted.getD (n / 2) 0 : Int) : ℚ) / 2) ≤
      (sorted.getD (n - 1) 0 : ℚ)
    have hb : sorted.getD (n / 2) 0 ≤ sorted.getD (n - 1) 0 :=
      sorted_getD_le sorted hsort (n / 2) (n - 1) (by omega) (by omega)
    have ha : sorted.getD (n / 2 - 1) 0 ≤ sorted.getD (n - 1) 0 :=
      sorted_getD_le sorted hsort (n / 2 - 1) (n - 1) (by omega) (by omega)
    split
    · exact_mod_cast hb
    · push_cast
      have hb' : ((sorted.getD (n / 2) 0 : Int) : ℚ) ≤ ((sorted.getD (n - 1) 0 : Int) : ℚ) := by
        exact_mod_cast hb
      have ha' : ((sorted.getD (n / 2 - 1) 0 : Int) : ℚ) ≤ ((sorted.getD (n - 1) 0 : Int) : ℚ) := by
        exact_mod_cast ha
      linarith
  · -- histogram sums to n
    show ((List.range 10).map
      (fun b => lens.countP (fun x => binIndex (sorted.getD 0 0) (sorted.getD (n - 1) 0) x == b))).sum = n
    exact count_partition lens _ 10 (fun x _ => binIndex_lt _ _ x)
  · -- 11 edges
    show ((List.range 11).map
      (fun (i : Nat) => ((sorted.getD 0 0 : Int) : ℚ) + (i : ℚ) * (((sorted.getD (n - 1) 0 : Int) : ℚ) -
        ((sorted.getD 0 0 : Int) : ℚ)) / 10)).length = 11
    rw [List.length_map, List.length_range]
  · -- edges non-decreasing
    show List.Sorted (· ≤ ·) ((List.range 11).map
      (fun (i : Nat) => ((sorted.getD 0 0 : Int) : ℚ) + (i : ℚ) * (((sorted.getD (n - 1) 0 : Int) : ℚ) -
        ((sorted.getD 0 0 : Int) : ℚ)) / 10))
    have hd : (0 : ℚ) ≤ ((sorted.getD (n - 1) 0 : Int) : ℚ) - ((sorted.getD 0 0 : Int) : ℚ) := by
      have : ((sorted.getD 0 0 : Int) : ℚ) ≤ ((sorted.getD (n - 1) 0 : Int) : ℚ) := by
        exact_mod_cast hmnmx
      linarith
    apply List.pairwise_iff_get.mpr
    intro i j hij
    simp only [List.get_eq_getElem, List.getElem_map, List.getElem_range]
    have hijq : ((i : Nat) : ℚ) ≤ ((j : Nat) : ℚ) := by
      exact_mod_cast le_of_lt hij
    have hprod := mul_le_mul_of_nonneg_right hijq hd
    linarith
  · -- first edge is min
    have hr : List.range 11 = [0, 1, 2, 3, 4, 5, 6, 7, 8, 9, 10] := rfl
    show (((List.range 11).map
      (fun (i : Nat) => ((sorted.getD 0 0 : Int) : ℚ) + (i : ℚ) * (((sorted.getD (n - 1) 0 : Int) : ℚ) -
        ((sorted.getD 0 0 : Int) : ℚ)) / 10)) : List ℚ).headI = ((sorted.getD 0 0 : Int) : ℚ)
    rw [hr]
    simp
  · -- last edge is max
    have hr : List.range 11 = [0, 1, 2, 3, 4, 5, 6, 7, 8, 9, 10] := rfl
    show (((List.range 11).map
      (fun (i : Nat) => ((sorted.getD 0 0 : Int) : ℚ) + (i : ℚ) * (((sorted.getD (n - 1) 0 : Int) : ℚ) -
        ((sorted.getD 0 0 : Int) : ℚ)) / 10)) : List ℚ).getLast? = some ((sorted.getD (n - 1) 0 : Int) : ℚ)
    rw [hr]
    simp only [List.map_cons, List.map_nil, List.getLast?_cons, List.getLast?_nil]
    norm_num
  · -- population variance
    have hn0 : ((n : ℚ)) ≠ 0 := by
      exact_mod_cast Nat.pos_iff_ne_zero.mp hn
    show (lens.map (fun (x : Int) => ((x : ℚ) - (lens.map (fun (x : Int) => (x : ℚ))).sum / n) ^ 2)).sum / n =
      (lens.map (fun (x : Int) => (x : ℚ) ^ 2)).sum / n -
        ((lens.map (fun (x : Int) => (x : ℚ))).sum / n) ^ 2
    have hmm : (lens.map (fun (x : Int) => ((x : ℚ) - (lens.map (fun (y : Int) => (y : ℚ))).sum / n) ^ 2)) =
        ((lens.map (fun (x : Int) => (x : ℚ))).map
          (fun y => (y - (lens.map (fun (y : Int) => (y : ℚ))).sum / n) ^ 2)) := by
      rw [List.map_map]
      rfl
    have hmm2 : (lens.map (fun (x : Int) => (x : ℚ) ^ 2)) =
        ((lens.map (fun (x : Int) => (x : ℚ))).map (fun y => y ^ 2)) := by
      rw [List.map_map]
      rfl
    rw [hmm, hmm2, sum_sq_dev, List.length_map]
    have hlen2 : ((lens.length : ℚ)) = (n : ℚ) := by rw [hn_def]
    rw [hlen2]
    field_simp
    ring

/-- C3: for every non-empty list of integer lengths, the per-sample stats
and the aggregate stat returned by `_summarize_lengths` satisfy
`min ≤ median ≤ max`, `n` equal to the list length, histogram counts
summing to `n`, eleven non-decreasing edges spanning `[min, max]`, and the
population-variance convention (divide by `n`, not `n − 1`). -/
theorem summarize_lengths_stat_props (m : List (List Char × List Int))
    (h1 : ∀ p ∈ m, p.2 ≠ []) (h2 : m ≠ []) :
    (_summarize_lengths m).1 = m.map (fun p => (p.1, summarizeOne p.2)) ∧
    (∀ p ∈ m, StatProps p.2 (summarizeOne p.2)) ∧
    StatProps (m.flatMap (fun p => p.2)) ((_summarize_lengths m).2) := by
  refine ⟨rfl, fun p hp => statProps_summarizeOne p.2 (h1 p hp), ?_⟩
  show StatProps _ (summarizeOne (m.flatMap (fun p => p.2)))
  apply statProps_summarizeOne
  cases m with
  | nil => exact absurd rfl h2
  | cons p t =>
    have hp := h1 p (by simp)
    simp only [List.flatMap_cons]
    intro hcontr
    rw [List.append_eq_nil] at hcontr
    exact hp hcontr.1

/-- C3 witness: the two-sample length map of the unit tests. -/
theorem summarize_lengths_stat_props_witness :
    ((∀ p ∈ [(([] : List Char), ([1, 2, 3] : List Int)), (([] : List Char), [3, 4])], p.2 ≠ []) ∧
      ([(([] : List Char), ([1, 2, 3] : List Int)), (([] : List Char), [3, 4])] ≠ [])) ∧
    ((_summarize_lengths [(([] : List Char), ([1, 2, 3] : List Int)), (([] : List Char), [3, 4])]).1 =
        [(([] : List Char), ([1, 2, 3] : List Int)), (([] : List Char), [3, 4])].map
          (fun p => (p.1, summarizeOne p.2)) ∧
      (∀ p ∈ [(([] : List Char), ([1, 2, 3] : List Int)), (([] : List Char), [3, 4])],
        StatProps p.2 (summarizeOne p.2)) ∧
      StatProps ([(([] : List Char), ([1, 2, 3] : List Int)),
          (([] : List Char), [3, 4])].flatMap (fun p => p.2))
        ((_summarize_lengths [(([] : List Char), ([1, 2, 3] : List Int)),
          (([] : List Char), [3, 4])]).2)) :=
  ⟨⟨by decide, by decide⟩,
   summarize_lengths_stat_props [(([] : List Char), [1, 2, 3]), (([] : List Char), [3, 4])]
     (by decide) (by decide)⟩

/-! ### LabelCodec lemmas and C5 -/

theorem digitVal_digitCh (m : Nat) (h : m < 10) : digitVal (digitCh m) = m := by
  interval_cases m <;> rfl

theorem natDigitsAux_congr : ∀ (n fuel1 fuel2 : Nat), n ≤ fuel1 → n ≤ fuel2 →
    natDigitsAux fuel1 n = natDigitsAux fuel2 n := by
  intro n
  induction n using Nat.strong_induction_on with
  | _ n ih =>
    intro fuel1 fuel2 h1 h2
    cases fuel1 with
    | zero =>
      cases fuel2 with
      | zero => rfl
      | succ g =>
        have hn : n = 0 := by omega
        subst hn
        rfl
    | succ f =>
      cases fuel2 with
      | zero =>
        have hn : n = 0 := by omega
        subst hn
        rfl
      | succ g =>
        show (if n < 10 then [digitCh n]
          else natDigitsAux f (n / 10) ++ [digitCh (n % 10)]) =
          (if n < 10 then [digitCh n]
          else natDigitsAux g (n / 10) ++ [digitCh (n % 10)])
        by_cases hlt : n < 10
        · rw [if_pos hlt, if_pos hlt]
        · rw [if_neg hlt, if_neg hlt,
            ih (n / 10) (Nat.div_lt_self (by omega) (by omega)) f g (by omega) (by omega)]

theorem natDigits_unfold (n : Nat) :
    natDigits n = if n < 10 then [digitCh n]
      else natDigits (n / 10) ++ [digitCh (n % 10)] := by
  unfold natDigits
  cases hn : n with
  | zero => rfl
  | succ m =>
    show (if m + 1 < 10 then [digitCh (m + 1)]
      else natDigitsAux m ((m + 1) / 10) ++ [digitCh ((m + 1) % 10)]) = _
    by_cases hlt : m + 1 < 10
    · rw [if_pos hlt, if_pos hlt]
    · rw [if_neg hlt, if_neg hlt,
        natDigitsAux_congr ((m + 1) / 10) m ((m + 1) / 10) (by omega) (by omega)]

theorem digitCh_isDigit (m : Nat) : (digitCh m).isDigit = true := by
  rcases m with _ | _ | _ | _ | _ | _ | _ | _ | _ | _ | m <;> rfl

theorem natDigits_ne_nil (n : Nat) : natDigits n ≠ [] := by
  rw [natDigits_unfold]
  split <;> simp

theorem natDigits_all_digit (n : Nat) : ∀ ch ∈ natDigits n, ch.isDigit = true := by
  induction n using Nat.strong_induction_on with
  | _ n ih =>
    rw [natDigits_unfold]
    split
    · intro ch hc
      rw [List.mem_singleton] at hc
      subst hc
      exact digitCh_isDigit n
    · intro ch hc
      rcases List.mem_append.mp hc with hc2 | hc2
      · exact ih (n / 10) (Nat.div_lt_self (by omega) (by omega)) ch hc2
      · rw [List.mem_singleton] at hc2
        subst hc2
        exact digitCh_isDigit (n % 10)

theorem digitsToNat_natDigits (n : Nat) : digitsToNat (natDigits n) = n := by
  induction n using Nat.strong_induction_on with
  | _ n ih =>
    rw [natDigits_unfold]
    split
    · rename_i h
      show (0 * 10 + digitVal (digitCh n) : Nat) = n
      rw [digitVal_digitCh n h]
      omega
    · rename_i h
      show List.foldl (fun a ch => a * 10 + digitVal ch) 0 (natDigits (n / 10) ++ [digitCh (n % 10)]) = n
      rw [List.foldl_append]
      have hdiv := ih (n / 10) (Nat.div_lt_self (by omega) (by omega))
      show digitsToNat (natDigits (n / 10)) * 10 + digitVal (digitCh (n % 10)) = n
      rw [hdiv, digitVal_digitCh (n % 10) (by omega)]
      omega

theorem isDigit_ne_space (ch : Char) (h : ch.isDigit = true) :
    (ch == Char.ofNat 32) = false := by
  rw [beq_eq_false_iff_ne]
  intro hch
  subst hch
  exact absurd h (by decide)

theorem parseLabelHead_format (s dgs : List Char) (hne : dgs ≠ [])
    (hdg : ∀ ch ∈ dgs, ch.isDigit = true) :
    parseLabelHead (s ++ Char.ofNat 95 :: dgs) = some (s, dgs) := by
  have hrev : (s ++ Char.ofNat 95 :: dgs).reverse =
      dgs.reverse ++ Char.ofNat 95 :: s.reverse := by
    simp
  have hu : (Char.ofNat 95).isDigit = false := by decide
  have hall : ∀ ch ∈ dgs.reverse, ch.isDigit = true :=
    fun ch hc => hdg ch (List.mem_reverse.mp hc)
  have htake := takeWhile_all_append Char.isDigit dgs.reverse (Char.ofNat 95) s.reverse hall hu
  have hdrop := dropWhile_all_append Char.isDigit dgs.reverse (Char.ofNat 95) s.reverse hall hu
  have hempty2 : dgs.reverse.isEmpty = false := by
    cases hd : dgs.reverse with
    | nil => exact absurd (List.reverse_eq_nil_iff.mp hd) hne
    | cons a t => rfl
  unfold parseLabelHead
  simp only [hrev, htake, hdrop, hempty2, Bool.false_eq_true, if_false]
  simp

theorem splitSp_ne_nil : ∀ l : List Char, splitSp l ≠ [] := by
  intro l
  induction l with
  | nil => simp [splitSp]
  | cons ch t ih =>
    by_cases hc : (ch == Char.ofNat 32) = true
    · simp [splitSp, hc]
    · rw [splitSp]
      rw [Bool.not_eq_true] at hc
      rw [hc]
      simp only [Bool.false_eq_true, if_false]
      cases hs : splitSp t with
      | nil => exact absurd hs ih
      | cons a b => simp

theorem splitSp_no_space (a : List Char)
    (ha : ∀ ch ∈ a, (ch == Char.ofNat 32) = false) : splitSp a = [a] := by
  induction a with
  | nil => rfl
  | cons ch t ih =>
    rw [splitSp, ha ch (by simp)]
    simp only [Bool.false_eq_true, if_false]
    rw [ih (fun x hx => ha x (by simp [hx]))]

theorem splitSp_append (a b : List Char)
    (ha : ∀ ch ∈ a, (ch == Char.ofNat 32) = false) :
    splitSp (a ++ Char.ofNat 32 :: b) = a :: splitSp b := by
  induction a with
  | nil => simp [splitSp]
  | cons ch t ih =>
    rw [List.cons_append, splitSp, ha ch (by simp)]
    simp only [Bool.false_eq_true, if_false]
    rw [ih (fun x hx => ha x (by simp [hx]))]

theorem dropToken_append (key rest : List Char) :
    dropToken key (key ++ rest) = some rest := by
  unfold dropToken
  rw [List.take_left, List.drop_left]
  simp

theorem parse_label_format (s : List Char) (i : Nat) (o c : List Char) (d : Nat)
    (hs : ∀ ch ∈ s, (ch == Char.ofNat 32) = false)
    (ho : ∀ ch ∈ o, (ch == Char.ofNat 32) = false)
    (hc : ∀ ch ∈ c, (ch == Char.ofNat 32) = false) :
    parse_label (format_label s i o c d) = some ⟨s, i, o, c, d⟩ := by
  have hsp1 : (" orig_bc=".toList : List Char) = Char.ofNat 32 :: "orig_bc=".toList := rfl
  have hsp2 : (" new_bc=".toList : List Char) = Char.ofNat 32 :: "new_bc=".toList := rfl
  have hsp3 : (" bc_diffs=".toList : List Char) = Char.ofNat 32 :: "bc_diffs=".toList := rfl
  have hshape : format_label s i o c d =
      (s ++ Char.ofNat 95 :: natDigits i) ++ Char.ofNat 32 ::
        (("orig_bc=".toList ++ o) ++ Char.ofNat 32 ::
          (("new_bc=".toList ++ c) ++ Char.ofNat 32 ::
            ("bc_diffs=".toList ++ natDigits d))) := by
    unfold format_label
    rw [hsp1, hsp2, hsp3]
    simp
  have hns0 : ∀ ch ∈ s ++ Char.ofNat 95 :: natDigits i, (ch == Char.ofNat 32) = false := by
    intro ch hch
    rcases List.mem_append.mp hch with h1 | h1
    · exact hs ch h1
    · rcases List.mem_cons.mp h1 with rfl | h2
      · decide
      · exact isDigit_ne_space ch (natDigits_all_digit i ch h2)
  have hkey1 : ∀ ch ∈ ("orig_bc=".toList : List Char), (ch == Char.ofNat 32) = false := by
    decide
  have hkey2 : ∀ ch ∈ ("new_bc=".toList : List Char), (ch == Char.ofNat 32) = false := by
    decide
  have hkey3 : ∀ ch ∈ ("bc_diffs=".toList : List Char), (ch == Char.ofNat 32) = false := by
    decide
  have hns1 : ∀ ch ∈ "orig_bc=".toList ++ o, (ch == Char.ofNat 32) = false := by
    intro ch hch
    rcases List.mem_append.mp hch with h1 | h1
    · exact hkey1 ch h1
    · exact ho ch h1
  have hns2 : ∀ ch ∈ "new_bc=".toList ++ c, (ch == Char.ofNat 32) = false := by
    intro ch hch
    rcases List.mem_append.mp hch with h1 | h1
    · exact hkey2 ch h1
    · exact hc ch h1
  have hns3 : ∀ ch ∈ "bc_diffs=".toList ++ natDigits d, (ch == Char.ofNat 32) = false := by
    intro ch hch
    rcases List.mem_append.mp hch with h1 | h1
    · exact hkey3 ch h1
    · exact isDigit_ne_space ch (natDigits_all_digit d ch h1)
  have hsplit : splitSp (format_label s i o c d) =
      [s ++ Char.ofNat 95 :: natDigits i, "orig_bc=".toList ++ o,
       "new_bc=".toList ++ c, "bc_diffs=".toList ++ natDigits d] := by
    rw [hshape, splitSp_append _ _ hns0, splitSp_append _ _ hns1, splitSp_append _ _ hns2,
      splitSp_no_space _ hns3]
  unfold parse_label
  rw [hsplit]
  simp only
  rw [parseLabelHead_format s (natDigits i) (natDigits_ne_nil i) (natDigits_all_digit i)]
  simp only
  rw [dropToken_append, dropToken_append, dropToken_append]
  simp only
  have hd1 : (natDigits d).isEmpty = false := by
    cases hnd : natDigits d with
    | nil => exact absurd hnd (natDigits_ne_nil d)
    | cons a t => rfl
  have hd2 : (natDigits d).all Char.isDigit = true :=
    List.all_eq_true.mpr (natDigits_all_digit d)
  rw [hd1, hd2]
  simp only [Bool.not_true, Bool.or_false, Bool.false_eq_true, if_false]
  rw [digitsToNat_natDigits, digitsToNat_natDigits]

/-- C5: the index of a label is the run of decimal digits immediately
before the first space (the end of the label's first token) and the
sample id is everything before the underscore immediately preceding that
run, so an embedded underscore is never a split point; profiling the
underscore-sample FASTA input accordingly yields samples `a_x` and `b_x`
with their per-sample length lists. -/
theorem label_sample_with_underscores (s dgs rest : List Char)
    (hs : ∀ ch ∈ s, (ch == Char.ofNat 32) = false)
    (hne : dgs ≠ []) (hdg : ∀ ch ∈ dgs, ch.isDigit = true) :
    (splitSp ((s ++ Char.ofNat 95 :: dgs) ++ Char.ofNat 32 :: rest)).headI =
      s ++ Char.ofNat 95 :: dgs ∧
    parseLabelHead (s ++ Char.ofNat 95 :: dgs) = some (s, dgs) ∧
    _per_sample_lengths underscoreLines =
      some [("a_x".toList, [1, 2, 3]), ("b_x".toList, [3, 4])] := by
  refine ⟨?_, parseLabelHead_format s dgs hne hdg, by decide⟩
  have hns : ∀ ch ∈ s ++ Char.ofNat 95 :: dgs, (ch == Char.ofNat 32) = false := by
    intro ch hch
    rcases List.mem_append.mp hch with h1 | h1
    · exact hs ch h1
    · rcases List.mem_cons.mp h1 with rfl | h2
      · decide
      · exact isDigit_ne_space ch (hdg ch h2)
  rw [splitSp_append _ rest hns]
  rfl

/-- C5 witness: a sample id `a_x` with an embedded underscore and index
digits `12`. -/
theorem label_sample_with_underscores_witness :
    ((∀ ch ∈ ("a_x".toList : List Char), (ch == Char.ofNat 32) = false) ∧
      ("12".toList : List Char) ≠ [] ∧
      (∀ ch ∈ ("12".toList : List Char), ch.isDigit = true)) ∧
    ((splitSp (("a_x".toList ++ Char.ofNat 95 :: "12".toList) ++
        Char.ofNat 32 :: "orig".toList)).headI =
      "a_x".toList ++ Char.ofNat 95 :: "12".toList ∧
     parseLabelHead ("a_x".toList ++ Char.ofNat 95 :: "12".toList) =
      some ("a_x".toList, "12".toList) ∧
     _per_sample_lengths underscoreLines =
      some [("a_x".toList, [1, 2, 3]), ("b_x".toList, [3, 4])]) :=
  ⟨⟨by decide, by decide, by decide⟩,
   label_sample_with_underscores "a_x".toList "12".toList "orig".toList
     (by decide) (by decide) (by decide)⟩

/-! ### Store round-trip machinery (C1, C4) -/

theorem mapWithIdx_length (F : Nat → α → β) :
    ∀ (i : Nat) (l : List α), (mapWithIdx F i l).length = l.length := by
  intro i l
  induction l generalizing i with
  | nil => rfl
  | cons a t ih => simp [mapWithIdx, ih]

theorem mapWithIdx_getElem (F : Nat → α → β) :
    ∀ (l : List α) (i k : Nat) (hk : k < l.length)
      (hk2 : k < (mapWithIdx F i l).length),
      (mapWithIdx F i l)[k] = F (i + k) l[k] := by
  intro l
  induction l with
  | nil => intro i k hk _; exact absurd hk (by simp)
  | cons a t ih =>
    intro i k hk hk2
    cases k with
    | zero => simp [mapWithIdx]
    | succ m =>
      have h1 : m < t.length := by simpa using hk
      have h2 : m < (mapWithIdx F (i + 1) t).length := by
        rw [mapWithIdx_length]
        exact h1
      show (mapWithIdx F (i + 1) t)[m] = F (i + (m + 1)) (a :: t)[m + 1]
      rw [ih (i + 1) m h1 h2]
      congr 1
      omega

theorem wfRec_props (hq : Bool) (r : PRec) (h : wfRec hq r = true) :
    (∀ ch ∈ r.sample, (ch == Char.ofNat 32) = false) ∧
    (∀ ch ∈ r.orig_bc, (ch == Char.ofNat 32) = false) ∧
    (∀ ch ∈ r.new_bc, (ch == Char.ofNat 32) = false) ∧
    (∀ ch ∈ r.orig_bc, (ch == padByte) = false) ∧
    (∀ ch ∈ r.new_bc, (ch == padByte) = false) ∧
    (∀ ch ∈ r.seq, (ch == padByte) = false) ∧
    (hq = true → r.qual.length = r.seq.length) := by
  simp only [wfRec, Bool.and_eq_true, List.all_eq_true, Bool.not_eq_true'] at h
  obtain ⟨⟨⟨⟨h1, h2⟩, h3⟩, h4⟩, h5⟩ := h
  refine ⟨h1, fun ch hc => (h2 ch hc).1, fun ch hc => (h3 ch hc).1,
    fun ch hc => (h2 ch hc).2, fun ch hc => (h3 ch hc).2, h4, ?_⟩
  intro hhq
  rw [hhq] at h5
  simpa using h5

theorem wfRecs_mem (hq : Bool) (prs : List PRec) (hwf : wfRecs hq prs = true) :
    ∀ r ∈ prs, wfRec hq r = true := by
  have h12 := hwf
  simp only [wfRecs, Bool.and_eq_true] at h12
  exact List.all_eq_true.mp h12.1

theorem wfRecs_bc (hq : Bool) (prs : List PRec) (hwf : wfRecs hq prs = true) :
    ∀ r ∈ prs, ∀ t ∈ prs, t.sample = r.sample →
      t.orig_bc.length = r.orig_bc.length ∧ t.new_bc.length = r.orig_bc.length := by
  have h12 := hwf
  simp only [wfRecs, Bool.and_eq_true] at h12
  have h := h12.2
  rw [List.all_eq_true] at h
  intro r hr t ht hsame
  have h2 := h r hr
  rw [List.all_eq_true] at h2
  have h3 := h2 t ht
  rw [Bool.or_eq_true, Bool.not_eq_true', Bool.and_eq_true] at h3
  rcases h3 with h3 | h3
  · rw [beq_eq_false_iff_ne] at h3
    exact absurd hsame h3
  · simp only [beq_iff_eq] at h3
    exact h3

theorem parseRec_rawOf (hq : Bool) (r : PRec) (h : wfRec hq r = true) :
    parseRec r.rawOf = some r := by
  obtain ⟨hs, ho, hc, _, _, _, _⟩ := wfRec_props hq r h
  rcases r with ⟨sm, ix, ob, nb, bd, sq, ql⟩
  unfold parseRec PRec.rawOf
  rw [parse_label_format sm ix ob nb bd hs ho hc]
  rfl

theorem mapM_parseRec (hq : Bool) (prs : List PRec)
    (h : ∀ r ∈ prs, wfRec hq r = true) :
    (prs.map PRec.rawOf).mapM parseRec = some prs := by
  induction prs with
  | nil => rfl
  | cons r t ih =>
    rw [List.map_cons, List.mapM_cons, parseRec_rawOf hq r (h r (by simp)),
      ih (fun x hx => h x (by simp [hx]))]
    rfl

theorem padTo_eq (w : Nat) (ch : Char) (x : List Char) (h : x.length ≤ w) :
    padTo w ch x = x ++ List.replicate (w - x.length) ch := by
  unfold padTo
  apply List.take_of_length_le
  simp
  omega

theorem padToInt_eq (w : Nat) (x : List Int) (h : x.length ≤ w) :
    padToInt w x = x ++ List.replicate (w - x.length) 0 := by
  unfold padToInt
  apply List.take_of_length_le
  simp
  omega

theorem rstrip_padTo (w : Nat) (x : List Char) (hlen : x.length ≤ w)
    (hx : ∀ a ∈ x, (a == padByte) = false) :
    rstripChar padByte (padTo w padByte x) = x := by
  rw [padTo_eq w padByte x hlen]
  exact rstripChar_pad padByte x (w - x.length) hx

theorem buildGroup_sample (hq : Bool) (prs : List PRec) (s : List Char) :
    (buildGroup hq prs s).sample = s := rfl

theorem samplesOf_nodup (prs : List PRec) : (samplesOf prs).Nodup := by
  have key : ∀ (l : List PRec) (acc : List (List Char)), acc.Nodup →
      (l.foldl (fun acc r => if r.sample ∈ acc then acc else acc ++ [r.sample]) acc).Nodup := by
    intro l
    induction l with
    | nil => intro acc h; exact h
    | cons r t ih =>
      intro acc hacc
      simp only [List.foldl_cons]
      by_cases hm : r.sample ∈ acc
      · rw [if_pos hm]
        exact ih acc hacc
      · rw [if_neg hm]
        apply ih
        rw [List.nodup_append]
        exact ⟨hacc, List.nodup_singleton _, by
          intro a ha hsing
          rw [List.mem_singleton] at hsing
          subst hsing
          exact hm ha⟩
  exact key prs [] List.nodup_nil

theorem find?_buildGroup_mem (hq : Bool) (prs : List PRec) :
    ∀ (names : List (List Char)) (s : List Char), names.Nodup → s ∈ names →
      (names.map (buildGroup hq prs)).find? (fun g => g.sample == s) =
        some (buildGroup hq prs s) := by
  intro names
  induction names with
  | nil => intro s _ hs; exact absurd hs (by simp)
  | cons t ts ih =>
    intro s hnd hs
    by_cases ht : t = s
    · subst ht
      rw [List.map_cons]
      apply List.find?_cons_of_pos
      simp [buildGroup_sample]
    · rw [List.map_cons]
      rw [List.find?_cons_of_neg]
      · apply ih s (List.Nodup.of_cons hnd)
        rcases List.mem_cons.mp hs with rfl | h2
        · exact absurd rfl ht
        · exact h2
      · simp only [buildGroup_sample, beq_eq_false_iff_ne, ne_eq]
        simpa using ht

theorem find?_buildGroup_not_mem (hq : Bool) (prs : List PRec)
    (names : List (List Char)) (s : List Char) (hs : s ∉ names) :
    (names.map (buildGroup hq prs)).find? (fun g => g.sample == s) = none := by
  rw [List.find?_eq_none]
  intro g hg
  rw [List.mem_map] at hg
  obtain ⟨t, ht, rfl⟩ := hg
  simp only [buildGroup_sample, beq_iff_eq]
  intro hcontr
  subst hcontr
  exact hs ht

theorem groups_names (hq : Bool) (prs : List PRec) :
    ((samplesOf prs).map (buildGroup hq prs)).map demuxGroup.sample = samplesOf prs := by
  rw [List.map_map]
  have : ∀ s ∈ samplesOf prs, (demuxGroup.sample ∘ buildGroup hq prs) s = s :=
    fun s _ => rfl
  rw [List.map_congr_left this]
  simp

theorem head?_eq_getElem_zero (l : List α) (h : 0 < l.length) : l.head? = some l[0] := by
  cases l with
  | nil => simp at h
  | cons a t => rfl

theorem groupRows_mem (prs : List PRec) (s : List Char) (r : PRec)
    (hr : r ∈ groupRows prs s) : r ∈ prs ∧ r.sample = s := by
  have h := List.mem_filter.mp hr
  exact ⟨h.1, by simpa using h.2⟩

theorem le_groupMaxLen (prs : List PRec) (s : List Char) (r : PRec)
    (hr : r ∈ groupRows prs s) : r.seq.length ≤ groupMaxLen prs s :=
  (le_foldl_max _ 0).2 _ (List.mem_map_of_mem _ hr)

theorem groupBcLen_eq (hq : Bool) (prs : List PRec) (s : List Char)
    (hwf : wfRecs hq prs = true) (r : PRec) (hr : r ∈ groupRows prs s) :
    r.orig_bc.length = groupBcLen prs s ∧ r.new_bc.length = groupBcLen prs s := by
  have h0 : 0 < (groupRows prs s).length := List.length_pos.mpr (by
    intro hnil
    rw [hnil] at hr
    exact absurd hr (by simp))
  have hr0 : (groupRows prs s)[0] ∈ groupRows prs s := List.getElem_mem h0
  obtain ⟨hr0p, hr0s⟩ := groupRows_mem prs s _ hr0
  obtain ⟨hrp, hrs⟩ := groupRows_mem prs s r hr
  have hbc := wfRecs_bc hq prs hwf ((groupRows prs s)[0]) hr0p r hrp (by rw [hrs, hr0s])
  have hB : groupBcLen prs s = (groupRows prs s)[0].orig_bc.length := by
    unfold groupBcLen
    rw [head?_eq_getElem_zero _ h0]
    rfl
  rw [hB]
  exact hbc

theorem fetchFormatted_buildGroup (hq : Bool) (prs : List PRec) (s : List Char)
    (hwf : wfRecs hq prs = true) (k : Nat) (hk : k < (groupRows prs s).length) :
    fetchFormatted (if hq then OutFormat.fastq else OutFormat.fasta)
      (buildGroup hq prs s) k =
      specExport hq s k ((groupRows prs s)[k]) := by
  have hrmem : (groupRows prs s)[k] ∈ groupRows prs s := List.getElem_mem hk
  obtain ⟨hrp, hrs⟩ := groupRows_mem prs s _ hrmem
  obtain ⟨hs1, ho1, hn1, ho2, hn2, hseqpad, hqlen⟩ :=
    wfRec_props hq _ (wfRecs_mem hq prs hwf _ hrp)
  have hml := le_groupMaxLen prs s _ hrmem
  obtain ⟨hbo, hbn⟩ := groupBcLen_eq hq prs s hwf _ hrmem
  have hseq : (buildGroup hq prs s).sequence.getD k [] =
      padTo (groupMaxLen prs s) padByte (groupRows prs s)[k].seq := by
    show ((groupRows prs s).map
      (fun r => padTo (groupMaxLen prs s) padByte r.seq)).getD k [] = _
    rw [List.getD_eq_getElem _ _ (by simpa using hk), List.getElem_map]
  have hseq2 : rstripChar padByte ((buildGroup hq prs s).sequence.getD k []) =
      (groupRows prs s)[k].seq := by
    rw [hseq]
    exact rstrip_padTo _ _ hml hseqpad
  have horig : rstripChar padByte ((buildGroup hq prs s).barcode_original.getD k []) =
      (groupRows prs s)[k].orig_bc := by
    show rstripChar padByte (((groupRows prs s).map
      (fun r => padTo (groupBcLen prs s) padByte r.orig_bc)).getD k []) = _
    rw [List.getD_eq_getElem _ _ (by simpa using hk), List.getElem_map]
    exact rstrip_padTo _ _ (le_of_eq hbo) ho2
  have hcorr : rstripChar padByte ((buildGroup hq prs s).barcode_corrected.getD k []) =
      (groupRows prs s)[k].new_bc := by
    show rstripChar padByte (((groupRows prs s).map
      (fun r => padTo (groupBcLen prs s) padByte r.new_bc)).getD k []) = _
    rw [List.getD_eq_getElem _ _ (by simpa using hk), List.getElem_map]
    exact rstrip_padTo _ _ (le_of_eq hbn) hn2
  have herr : (buildGroup hq prs s).barcode_error.getD k 0 =
      (groupRows prs s)[k].bc_diffs := by
    show ((groupRows prs s).map (fun r => r.bc_diffs)).getD k 0 = _
    rw [List.getD_eq_getElem _ _ (by simpa using hk), List.getElem_map]
  cases hq with
  | false =>
    show format_fasta_record
        (format_label (buildGroup false prs s).sample k
          (rstripChar padByte ((buildGroup false prs s).barcode_original.getD k []))
          (rstripChar padByte ((buildGroup false prs s).barcode_corrected.getD k []))
          ((buildGroup false prs s).barcode_error.getD k 0))
        (rstripChar padByte ((buildGroup false prs s).sequence.getD k [])) () =
      specExport false s k (groupRows prs s)[k]
    rw [hseq2, horig, hcorr, herr, buildGroup_sample]
    rfl
  | true =>
    have hqual : ((buildGroup true prs s).qual.getD k []).take
        (groupRows prs s)[k].seq.length = (groupRows prs s)[k].qual := by
      show (((groupRows prs s).map
        (fun r => padToInt (groupMaxLen prs s) (if true then r.qual else []))).getD k []).take
          (groupRows prs s)[k].seq.length = _
      rw [List.getD_eq_getElem _ _ (by simpa using hk), List.getElem_map]
      have hql := hqlen rfl
      rw [if_pos rfl, padToInt_eq _ _ (by omega), ← hql, List.take_left]
    show format_fastq_record
        (format_label (buildGroup true prs s).sample k
          (rstripChar padByte ((buildGroup true prs s).barcode_original.getD k []))
          (rstripChar padByte ((buildGroup true prs s).barcode_corrected.getD k []))
          ((buildGroup true prs s).barcode_error.getD k 0))
        (rstripChar padByte ((buildGroup true prs s).sequence.getD k []))
        (((buildGroup true prs s).qual.getD k []).take
          (rstripChar padByte ((buildGroup true prs s).sequence.getD k [])).length) =
      specExport true s k (groupRows prs s)[k]
    rw [hseq2, horig, hcorr, herr, hqual, buildGroup_sample]
    rfl

theorem fetchAll_buildGroup (hq : Bool) (prs : List PRec) (s : List Char)
    (hwf : wfRecs hq prs = true) :
    fetchAll (if hq then OutFormat.fastq else OutFormat.fasta) (buildGroup hq prs s) =
      mapWithIdx (specExport hq s) 0 (groupRows prs s) := by
  have hlen : (buildGroup hq prs s).sequence.length = (groupRows prs s).length := by
    show ((groupRows prs s).map _).length = _
    rw [List.length_map]
  apply List.ext_getElem
  · rw [mapWithIdx_length]
    show ((List.range (buildGroup hq prs s).sequence.length).map _).length = _
    rw [List.length_map, List.length_range, hlen]
  · intro k h1 h2
    have hk : k < (groupRows prs s).length := by
      rw [mapWithIdx_length] at h2
      exact h2
    show ((List.range (buildGroup hq prs s).sequence.length).map
      (fetchFormatted (if hq then OutFormat.fastq else OutFormat.fasta)
        (buildGroup hq prs s)))[k] = _
    rw [List.getElem_map, List.getElem_range, mapWithIdx_getElem _ _ 0 k hk (by
      rw [mapWithIdx_length]; exact hk)]
    rw [Nat.zero_add]
    exact fetchFormatted_buildGroup hq prs s hwf k hk

theorem to_ascii_buildStore_none (hq : Bool) (prs : List PRec)
    (hwf : wfRecs hq prs = true) :
    to_ascii (buildStore hq prs) none =
      (samplesOf prs).flatMap (fun s => expectedSampleOut hq s prs) := by
  have hfind : ∀ s ∈ samplesOf prs,
      findGroup (buildStore hq prs) s = some (buildGroup hq prs s) := by
    intro s hs
    show ((samplesOf prs).map (buildGroup hq prs)).find? (fun g => g.sample == s) = _
    exact find?_buildGroup_mem hq prs (samplesOf prs) s (samplesOf_nodup prs) hs
  show (((buildStore hq prs).groups.map demuxGroup.sample).filterMap
      (findGroup (buildStore hq prs))).flatMap
      (fetchAll (if (buildStore hq prs).has_qual then OutFormat.fastq else OutFormat.fasta)) = _
  have hnames : (buildStore hq prs).groups.map demuxGroup.sample = samplesOf prs :=
    groups_names hq prs
  rw [hnames, filterMap_eq_map_of (samplesOf prs) _ (buildGroup hq prs) hfind,
    List.flatMap_map]
  exact flatMap_congr_of _ _ _ (fun s _ => fetchAll_buildGroup hq prs s hwf)

theorem to_ascii_buildStore_single (hq : Bool) (prs : List PRec) (s : List Char)
    (hwf : wfRecs hq prs = true) :
    to_ascii (buildStore hq prs) (some [s]) =
      (if s ∈ samplesOf prs then expectedSampleOut hq s prs else []) := by
  show (([s].filterMap (findGroup (buildStore hq prs))).flatMap
      (fetchAll (if (buildStore hq prs).has_qual then OutFormat.fastq else OutFormat.fasta))) = _
  by_cases hs : s ∈ samplesOf prs
  · rw [if_pos hs]
    have hfind : findGroup (buildStore hq prs) s = some (buildGroup hq prs s) :=
      find?_buildGroup_mem hq prs (samplesOf prs) s (samplesOf_nodup prs) hs
    rw [List.filterMap_cons, hfind]
    simp only [List.filterMap_nil, List.flatMap_cons, List.flatMap_nil, List.append_nil]
    exact fetchAll_buildGroup hq prs s hwf
  · rw [if_neg hs]
    have hfind : findGroup (buildStore hq prs) s = none :=
      find?_buildGroup_not_mem hq prs (samplesOf prs) s hs
    rw [List.filterMap_cons, hfind]
    rfl

/-- C1 counterexample: the round trip does not reproduce the original
labels exactly.  The FASTA records labelled `a_1` and `a_2` come back
re-labelled `a_0`/`a_1`, so the exported stream differs from the original
records' own formatting. -/
theorem to_ascii_roundtrip_exact_cex :
    (to_hdf5 (c4recs.map PRec.rawOf) false).map (fun st => to_ascii st none) ≠
      some (c4recs.map (fun r =>
        format_fasta_record (format_label r.sample r.index r.orig_bc r.new_bc r.bc_diffs)
          r.seq ())) := by
  decide

/-- C1 (amended): for every well-formed record set, exporting the store
built by `to_hdf5` reproduces, per sample in store order and per row in
encounter order, each original record's sequence exactly, its quality
scores exactly at the sequence's true length (independent of the group's
`max_len` padding) when the input carries quality, and its label with the
original ordinal replaced by the record's 0-based row index in its
sample. -/
theorem to_ascii_roundtrip_amended (hq : Bool) (prs : List PRec)
    (hwf : wfRecs hq prs = true) :
    (to_hdf5 (prs.map PRec.rawOf) hq).map (fun st => to_ascii st none) =
      some ((samplesOf prs).flatMap (fun s => expectedSampleOut hq s prs)) := by
  unfold to_hdf5
  rw [mapM_parseRec hq prs (wfRecs_mem hq prs hwf)]
  show some (to_ascii (buildStore hq prs) none) = _
  rw [to_ascii_buildStore_none hq prs hwf]

/-- C1 witness: the variable-length FASTQ records round-trip, qualities
truncated to each row's true length. -/
theorem to_ascii_roundtrip_amended_witness :
    wfRecs true fqVarRecs = true ∧
    (to_hdf5 (fqVarRecs.map PRec.rawOf) true).map (fun st => to_ascii st none) =
      some ((samplesOf fqVarRecs).flatMap (fun s => expectedSampleOut true s fqVarRecs)) :=
  ⟨by decide, to_ascii_roundtrip_amended true fqVarRecs (by decide)⟩

/-- C4: within each sample the store's rows follow input encounter order
and the exporter relabels row `i` of sample `s` as `s_i`, discarding the
original ordinal: requesting one sample yields exactly its re-indexed
records, and on the two FASTA records `a_1`/`x`, `a_2`/`xy` the exporter
yields `>a_0 orig_bc=abc new_bc=abc bc_diffs=0\nx\n` then
`>a_1 orig_bc=aby new_bc=ybc bc_diffs=2\nxy\n`. -/
theorem to_ascii_renumbers_rows (hq : Bool) (prs : List PRec) (s : List Char)
    (hwf : wfRecs hq prs = true) :
    ((to_hdf5 (prs.map PRec.rawOf) hq).map (fun st => to_ascii st (some [s])) =
      some (if s ∈ samplesOf prs then expectedSampleOut hq s prs else [])) ∧
    (to_hdf5 (c4recs.map PRec.rawOf) false).map
        (fun st => to_ascii st (some ["a".toList])) =
      some [(">a_0 orig_bc=abc new_bc=abc bc_diffs=0\nx\n").toList,
            (">a_1 orig_bc=aby new_bc=ybc bc_diffs=2\nxy\n").toList] := by
  constructor
  · unfold to_hdf5
    rw [mapM_parseRec hq prs (wfRecs_mem hq prs hwf)]
    show some (to_ascii (buildStore hq prs) (some [s])) = _
    rw [to_ascii_buildStore_single hq prs s hwf]
  · decide

/-- C4 witness: the two-record scenario itself. -/
theorem to_ascii_renumbers_rows_witness :
    wfRecs false c4recs = true ∧
    (((to_hdf5 (c4recs.map PRec.rawOf) false).map
        (fun st => to_ascii st (some ["a".toList])) =
      some (if "a".toList ∈ samplesOf c4recs
        then expectedSampleOut false ("a".toList) c4recs else [])) ∧
     (to_hdf5 (c4recs.map PRec.rawOf) false).map
        (fun st => to_ascii st (some ["a".toList])) =
      some [(">a_0 orig_bc=abc new_bc=abc bc_diffs=0\nx\n").toList,
            (">a_1 orig_bc=aby new_bc=ybc bc_diffs=2\nxy\n").toList]) :=
  ⟨by decide, to_ascii_renumbers_rows false c4recs ("a".toList) (by decide)⟩
